import Mathlib

set_option maxHeartbeats 1000000

/-!
Verification development for the EscapeFromFAMCS repository: a raycasting
maze game with BFS pursuit pathfinding (src/pathfinding.py), procedural
maze generation with connectivity repair (src/world.py), a monster
simulation and save/load layer (src/states.py), and a DDA raycasting
renderer (src/renderer.py).

Shallow embedding conventions:
* grid cells are pairs of integers (Python int coordinates);
* Python 2-D arrays (such as the distance field created by
  compute_dist_map) are embedded as functions from cells to integers with
  pointwise update, or as lists of rows where the source passes the array
  around as a list of lists;
* Python while loops are embedded as fuel-based recursion where the fuel
  provably dominates the loop's termination measure, so the embedded
  function agrees with the unbounded loop;
* Python floats are embedded as real numbers (game simulation; the power
  operator is real rpow) or as rationals (renderer DDA, which uses field
  operations only).
-/

namespace EFF

/-! ## Definitions: cells and the BFS of src/pathfinding.py -/

abbrev Cell := ℤ × ℤ

/-- pathfinding.py line 5: the fixed 4-neighbourhood direction list. -/
def DIRS4 : List Cell := [(1, 0), (-1, 0), (0, 1), (0, -1)]

/-- The neighbour of a cell in a given direction (`nx, ny = x + dx, y + dy`). -/
def nbr (c d : Cell) : Cell := (c.1 + d.1, c.2 + d.2)

/-- The bounds check `0 <= nx < w and 0 <= ny < h` used throughout the source. -/
def inBounds (w h : ℕ) (c : Cell) : Prop :=
  0 ≤ c.1 ∧ c.1 < (w : ℤ) ∧ 0 ≤ c.2 ∧ c.2 < (h : ℤ)

instance (w h : ℕ) (c : Cell) : Decidable (inBounds w h c) := by
  unfold inBounds; exact inferInstance

/-- Pointwise update of an embedded 2-D integer array (`dist[ny][nx] = v`). -/
def upd (f : Cell → ℤ) (c : Cell) (v : ℤ) : Cell → ℤ :=
  fun x => if x = c then v else f x

/-- One direction of the inner `for dx, dy in DIRS4` loop of
`compute_dist_map` (pathfinding.py lines 25-29): if the neighbour is in
bounds, unvisited (`dist[ny][nx] == -1`) and not blocking, assign it
distance `d + 1` and append it to the queue. -/
def relaxNbr (B : Cell → Bool) (w h : ℕ) (c : Cell) (d : ℤ)
    (acc : (Cell → ℤ) × List Cell) (dir : Cell) : (Cell → ℤ) × List Cell :=
  let n := nbr c dir
  if inBounds w h n ∧ acc.1 n = -1 ∧ B n = false then
    (upd acc.1 n (d + 1), acc.2 ++ [n])
  else acc

/-- The `while q:` loop of `compute_dist_map` (pathfinding.py lines 22-29),
fuel-based.  Each iteration pops the queue head, relaxes its four
neighbours, and pushes the freshly assigned cells at the back of the
queue.  The measure `2 * (number of unvisited in-bounds cells) + queue
length` strictly decreases each iteration, so any fuel of at least
`2*w*h + 1` runs the loop to queue exhaustion (this is proved, not
assumed: see `bfsAux_post`, whose induction threads the measure). -/
def bfsAux (B : Cell → Bool) (w h : ℕ) : ℕ → List Cell → (Cell → ℤ) → (Cell → ℤ)
  | 0, _, dist => dist
  | _ + 1, [], dist => dist
  | fuel + 1, c :: rest, dist =>
    let p := DIRS4.foldl (relaxNbr B w h c (dist c)) (dist, rest)
    bfsAux B w h fuel p.2 p.1

/-- pathfinding.py lines 8-30, `compute_dist_map`: BFS distance field from
source `src` over the `w`-by-`h` grid with blocking predicate `B`.  The
field starts all -1, the source gets 0 and is enqueued, then the queue
loop runs.  (The Python function reads `w`, `h` and the default blocking
predicate off the `world` argument; they are explicit parameters here.) -/
def compute_dist_map (B : Cell → Bool) (w h : ℕ) (src : Cell) : Cell → ℤ :=
  bfsAux B w h (2 * w * h + 1) [src] (upd (fun _ => -1) src 0)

/-- Specification side: a walk of `n` 4-connected steps from `src` to `c`
in which every *entered* cell is in bounds and not blocking.  The source
itself is never tested, matching the code, which applies `is_blocking`
only to cells being entered. -/
inductive PathTo (B : Cell → Bool) (w h : ℕ) (src : Cell) : Cell → ℕ → Prop
  | refl : PathTo B w h src src 0
  | step {c : Cell} {n : ℕ} {dir : Cell} :
      PathTo B w h src c n → dir ∈ DIRS4 →
      inBounds w h (nbr c dir) → B (nbr c dir) = false →
      PathTo B w h src (nbr c dir) (n + 1)

/-- The finite set of in-bounds cells. -/
def bounded (w h : ℕ) : Finset Cell :=
  (Finset.Icc (0 : ℤ) ((w : ℤ) - 1)) ×ˢ (Finset.Icc (0 : ℤ) ((h : ℤ) - 1))

/-- Number of unvisited in-bounds cells (half of the loop termination measure). -/
def unvisCard (w h : ℕ) (dist : Cell → ℤ) : ℕ :=
  ((bounded w h).filter (fun c => dist c = -1)).card

/-- Number of visited in-bounds cells (bounds the distance values). -/
def visCard (w h : ℕ) (dist : Cell → ℤ) : ℕ :=
  ((bounded w h).filter (fun c => dist c ≠ -1)).card

/-- The loop invariant of the BFS queue loop. -/
structure BfsInv (B : Cell → Bool) (w h : ℕ) (src : Cell)
    (dist : Cell → ℤ) (q : List Cell) : Prop where
  src_zero : dist src = 0
  vis_path : ∀ c, dist c ≠ -1 → 0 ≤ dist c ∧ PathTo B w h src c (dist c).toNat
  q_vis : ∀ c ∈ q, dist c ≠ -1
  q_nodup : q.Nodup
  vis_dom : ∀ c, dist c ≠ -1 → c = src ∨ inBounds w h c
  vis_lt : ∀ c, dist c ≠ -1 → dist c + 1 ≤ (visCard w h dist : ℤ)
  closed : ∀ b, dist b ≠ -1 → b ∉ q → ∀ dir ∈ DIRS4, inBounds w h (nbr b dir) →
      B (nbr b dir) = false → dist (nbr b dir) ≠ -1 ∧ dist (nbr b dir) ≤ dist b + 1
  order : ∃ d0 q1 q2, q = q1 ++ q2 ∧ (∀ c ∈ q1, dist c = d0) ∧
      (∀ c ∈ q2, dist c = d0 + 1) ∧
      (∀ b, dist b ≠ -1 → b ∉ q → dist b ≤ d0)

/-- What is true of the field once the queue is exhausted. -/
structure BfsPost (B : Cell → Bool) (w h : ℕ) (src : Cell) (dist : Cell → ℤ) : Prop where
  src_zero : dist src = 0
  vis_path : ∀ c, dist c ≠ -1 → 0 ≤ dist c ∧ PathTo B w h src c (dist c).toNat
  vis_dom : ∀ c, dist c ≠ -1 → c = src ∨ inBounds w h c
  vis_lt : ∀ c, dist c ≠ -1 → dist c + 1 ≤ ((w * h : ℕ) : ℤ)
  closed : ∀ b, dist b ≠ -1 → ∀ dir ∈ DIRS4, inBounds w h (nbr b dir) →
      B (nbr b dir) = false → dist (nbr b dir) ≠ -1 ∧ dist (nbr b dir) ≤ dist b + 1

/-! ## Definitions: pick_next_cell_for_monster of src/pathfinding.py -/

/-- The bounds test `0 <= ny < len(dist) and 0 <= nx < len(dist[0])` of
pathfinding.py line 38 (row count from `len(dist)`, column count from the
first row). -/
def fieldInBounds (dist : List (List ℤ)) (c : Cell) : Prop :=
  0 ≤ c.2 ∧ c.2 < (dist.length : ℤ) ∧ 0 ≤ c.1 ∧ c.1 < ((dist.headD []).length : ℤ)

instance (dist : List (List ℤ)) (c : Cell) : Decidable (fieldInBounds dist c) := by
  unfold fieldInBounds; exact inferInstance

/-- The lookup `dist[ny][nx]` (performed by the source only under
`fieldInBounds`, so the default value is never observable). -/
def fieldAt (dist : List (List ℤ)) (c : Cell) : ℤ :=
  (dist.getD c.2.toNat []).getD c.1.toNat 0

/-- One iteration of the `for dx, dy in DIRS4` scan of
`pick_next_cell_for_monster` (pathfinding.py lines 36-42): keep the first
strictly smallest value distinct from -1 among in-bounds neighbours. -/
def pickStep (dist : List (List ℤ)) (m : Cell) (acc : Option Cell × ℤ) (dir : Cell) :
    Option Cell × ℤ :=
  let n := nbr m dir
  if fieldInBounds dist n then
    let d := fieldAt dist n
    if d ≠ -1 ∧ d < acc.2 then (some n, d) else acc
  else acc

/-- pathfinding.py lines 33-43: scan the four neighbours in `DIRS4` order
starting from `best = None`, `best_d = 10**9`. -/
def pick_next_cell_for_monster (dist : List (List ℤ)) (mx my : ℤ) : Option (ℤ × ℤ) :=
  (DIRS4.foldl (pickStep dist (mx, my)) (none, 10 ^ 9)).1

/-- A neighbour that improves on the current best value `bd`. -/
def candNbr (dist : List (List ℤ)) (bd : ℤ) (c : Cell) : Prop :=
  fieldInBounds dist c ∧ fieldAt dist c ≠ -1 ∧ fieldAt dist c < bd

instance (dist : List (List ℤ)) (bd : ℤ) (c : Cell) : Decidable (candNbr dist bd c) := by
  unfold candNbr; exact inferInstance

/-- A neighbour the scan can select at all: in bounds, value not -1 and
below the `10**9` sentinel that initialises `best_d`. -/
def eligibleNbr (dist : List (List ℤ)) (c : Cell) : Prop :=
  fieldInBounds dist c ∧ fieldAt dist c ≠ -1 ∧ fieldAt dist c < 10 ^ 9

instance (dist : List (List ℤ)) (c : Cell) : Decidable (eligibleNbr dist c) := by
  unfold eligibleNbr; exact inferInstance

/-! ## Definitions: the grid world of src/world.py -/

/-- world.py MapSpec: an authored grid (list of row strings, embedded as
lists of characters) plus wrap portals (edge name, range low, range high).
Portal floats are stored as rationals (every Python float is one). -/
structure MapSpec where
  grid : List (List Char)
  wrap_portals : List (String × ℚ × ℚ) := []

/-- world.py lines 225-230, World.__init__: `MAP` is the grid as a list of
rows, `h = len(self.MAP)`, `w = len(self.MAP[0])`. -/
structure World where
  MAP : List (List Char)
  wrap_portals : List (String × ℚ × ℚ)

def World.ofSpec (m : MapSpec) : World := ⟨m.grid, m.wrap_portals⟩

def World.h (wd : World) : ℕ := wd.MAP.length

def World.w (wd : World) : ℕ := (wd.MAP.headD []).length

/-- world.py lines 238-241, `cell_at`: in-range cells are read from the
array, out-of-range queries return the wall character. -/
def World.cell_at (wd : World) (mx my : ℤ) : Char :=
  if 0 ≤ mx ∧ mx < (wd.w : ℤ) ∧ 0 ≤ my ∧ my < (wd.h : ℤ) then
    (wd.MAP.getD my.toNat []).getD mx.toNat '1'
  else '1'

/-- world.py lines 243-244. -/
def World.is_wall_cell (wd : World) (mx my : ℤ) : Bool :=
  decide (wd.cell_at mx my = '1')

/-- world.py lines 246-248: blocking means wall or (closed) door. -/
def World.is_blocking_cell (wd : World) (mx my : ℤ) : Bool :=
  decide (wd.cell_at mx my = '1' ∨ wd.cell_at mx my = 'D')

/-! ## Definitions: maze generation of src/world.py -/

/-- Pointwise update of an embedded character grid (`g[y][x] = v`). -/
def updC (g : Cell → Char) (c : Cell) (v : Char) : Cell → Char :=
  fun x => if x = c then v else g x

/-- Pointwise update of an embedded seen-set (`seen.add((nx, ny))`). -/
def updB (f : Cell → Bool) (c : Cell) (v : Bool) : Cell → Bool :=
  fun x => if x = c then v else f x

/-- world.py lines 129-130, `_odd`. -/
def pyOdd (n : ℕ) : ℕ := if n % 2 = 1 then n else n + 1

/-- world.py line 142: the two-cell lattice directions of the backtracker. -/
def CARVE_DIRS : List Cell := [(2, 0), (-2, 0), (0, 2), (0, -2)]

/-- Oracle supplying every random draw `generate_maze_grid` makes
(`random.choice`, the four `randrange` calls of the room pass, and the
per-cell `random.random() <= loop_chance` outcome).  Quantifying over all
oracles covers every seed of the Python RNG (the oracle is consulted at
least as often as the source consults the RNG). -/
structure MazeOracle where
  carveChoice : ℕ → ℕ
  roomW : ℕ → ℕ
  roomH : ℕ → ℕ
  roomX : ℕ → ℕ
  roomY : ℕ → ℕ
  loopCarve : Cell → Bool

/-- world.py lines 144-158: the depth-first backtracker loop.  The Python
stack's top (`stack[-1]`) is the list head here.  `neigh` collects the
in-lattice unvisited neighbours; a nonempty `neigh` carves the wall
between and the target and pushes the target, otherwise the stack pops.
The fuel `2*w*h + 1` dominates the measure `2*(number of wall cells) +
stack length`, which decreases every iteration (a carve turns at least one
wall cell open; a pop shortens the stack), so the fuelled recursion runs
the source loop to completion. -/
def carveNeigh (w h : ℕ) (g : Cell → Char) (c : Cell) : List (Cell × Cell) :=
  CARVE_DIRS.filterMap (fun d =>
    let n := nbr c d
    if 1 ≤ n.1 ∧ n.1 < (w : ℤ) - 1 ∧ 1 ≤ n.2 ∧ n.2 < (h : ℤ) - 1 ∧ g n = '1' then
      some (n, d)
    else none)

def carveLoop (choice : ℕ → ℕ) (w h : ℕ) :
    ℕ → ℕ → List Cell → (Cell → Char) → (Cell → Char)
  | 0, _, _, g => g
  | _ + 1, _, [], g => g
  | fuel + 1, i, c :: st, g =>
    if (carveNeigh w h g c).isEmpty then
      carveLoop choice w h fuel (i + 1) st g
    else
      let pickn := (carveNeigh w h g c).getD
        (choice i % (carveNeigh w h g c).length) ((0, 0), (0, 0))
      carveLoop choice w h fuel (i + 1) (pickn.1 :: c :: st)
        (updC (updC g (nbr c (pickn.2.1 / 2, pickn.2.2 / 2)) '0') pickn.1 '0')

/-- world.py lines 160-167: carve `room_attempts = 22` random rectangles.
`randrange(3, 8)` becomes `3 + r % 5` and `randrange(1, w - rw - 1)`
becomes `1 + r % (w - rw - 2)`; the source only evaluates these with
`w - rw - 2 ≥ 16 > 0` (`w, h ≥ 25`, `rw, rh ≤ 7`). -/
def carveRooms (o : MazeOracle) (w h : ℕ) (g0 : Cell → Char) : Cell → Char :=
  (List.range 22).foldl (fun g i =>
    let rw := 3 + o.roomW i % 5
    let rh := 3 + o.roomH i % 5
    let x0 := 1 + o.roomX i % (w - rw - 2)
    let y0 := 1 + o.roomY i % (h - rh - 2)
    fun c =>
      if (x0 : ℤ) ≤ c.1 ∧ c.1 < (x0 : ℤ) + (rw : ℤ) ∧ (y0 : ℤ) ≤ c.2 ∧
          c.2 < (y0 : ℤ) + (rh : ℤ) then '0'
      else g c) g0

/-- The interior scan order `for y in range(1, h-1): for x in range(1, w-1)`
shared by the loop-adding pass, the flood-fill start search and the
connectivity repair. -/
def interiorCells (w h : ℕ) : List Cell :=
  ((List.range (h - 2)).map (fun k => k + 1)).flatMap (fun y : ℕ =>
    ((List.range (w - 2)).map (fun k => k + 1)).map (fun x : ℕ => ((x : ℤ), (y : ℤ))))

/-- world.py lines 169-178, the loop-adding pass: walk the interior in scan
order; where the oracle consents, open a wall cell that has open cells on
both horizontal sides, else on both vertical sides.  Later reads see
earlier writes, as in the source's in-place mutation. -/
def loopPass (o : MazeOracle) (w h : ℕ) (g0 : Cell → Char) : Cell → Char :=
  (interiorCells w h).foldl (fun g c =>
    if g c ≠ '1' then g
    else if o.loopCarve c = false then g
    else if g (nbr c (-1, 0)) = '0' ∧ g (nbr c (1, 0)) = '0' then updC g c '0'
    else if g (nbr c (0, -1)) = '0' ∧ g (nbr c (0, 1)) = '0' then updC g c '0'
    else g) g0

/-- world.py lines 180-185: force the outer border back to wall. -/
def borderize (w h : ℕ) (g : Cell → Char) : Cell → Char :=
  fun c =>
    if c.1 = 0 ∨ c.1 = (w : ℤ) - 1 ∨ c.2 = 0 ∨ c.2 = (h : ℤ) - 1 then '1' else g c

/-- world.py lines 188-195: scan for the first interior open cell. -/
def findStart (w h : ℕ) (g : Cell → Char) : Option Cell :=
  (interiorCells w h).find? (fun c => g c == '0')

/-- One direction of the flood-fill expansion (world.py lines 202-206):
enter in-bounds open cells not yet seen. -/
def floodNbr (w h : ℕ) (g : Cell → Char) (c : Cell)
    (acc : (Cell → Bool) × List Cell) (dir : Cell) : (Cell → Bool) × List Cell :=
  let n := nbr c dir
  if inBounds w h n ∧ g n = '0' ∧ acc.1 n = false then
    (updB acc.1 n true, acc.2 ++ [n])
  else acc

/-- The `while q:` flood-fill loop (world.py lines 200-206), fuel-based
exactly like `bfsAux` (measure `2*(unseen in-bounds cells) + queue length`). -/
def floodAux (w h : ℕ) (g : Cell → Char) : ℕ → List Cell → (Cell → Bool) → (Cell → Bool)
  | 0, _, seen => seen
  | _ + 1, [], seen => seen
  | fuel + 1, c :: rest, seen =>
    let p := DIRS4.foldl (floodNbr w h g c) (seen, rest)
    floodAux w h g fuel p.2 p.1

/-- world.py lines 198-206: `q = deque([start]); seen = {start}` then flood. -/
def floodFill (w h : ℕ) (g : Cell → Char) (start : Cell) : Cell → Bool :=
  floodAux w h g (2 * w * h + 1) [start] (updB (fun _ => false) start true)

/-- world.py lines 208-211: close every interior open cell the flood-fill
did not reach.  The source's double loop writes cells independently, so it
is embedded as a pointwise conditional. -/
def repairGrid (w h : ℕ) (g : Cell → Char) : Cell → Char :=
  match findStart w h g with
  | none => g
  | some st =>
    let seen := floodFill w h g st
    fun c =>
      if (1 ≤ c.1 ∧ c.1 < (w : ℤ) - 1 ∧ 1 ≤ c.2 ∧ c.2 < (h : ℤ) - 1) ∧
          g c = '0' ∧ seen c = false then '1'
      else g c

/-- The generated grid together with its dimensions (world.py line 213
joins the rows into strings; the claims are about the cell contents). -/
structure MazeGrid where
  w : ℕ
  h : ℕ
  g : Cell → Char

/-- world.py lines 137-185: everything `generate_maze_grid` does before the
connectivity repair, for an already clamped size: start from the all-wall
grid with (1,1) carved (lines 137-140), run the backtracker, carve rooms,
add loops, re-wall the border. -/
def mazePreRepair (o : MazeOracle) (w h : ℕ) : Cell → Char :=
  borderize w h (loopPass o w h (carveRooms o w h
    (carveLoop o.carveChoice w h (2 * w * h + 1) 0 [(1, 1)]
      (updC (fun _ => '1') (1, 1) '0'))))

/-- world.py lines 133-213, `generate_maze_grid`: clamp the size to odd and
at least 25, carve with the backtracker from (1,1), carve rooms, add
loops, re-wall the border, then repair connectivity. -/
def generate_maze_grid (o : MazeOracle) (w0 h0 : ℕ) : MazeGrid :=
  let w := pyOdd (max w0 25)
  let h := pyOdd (max h0 25)
  ⟨w, h, repairGrid w h (mazePreRepair o w h)⟩

/-- Blocking predicate of maze-grid walks: anything but an open cell. -/
def mazeBlocking (g : Cell → Char) : Cell → Bool :=
  fun c => decide (g c ≠ '0')

/-- Number of unseen in-bounds cells (flood-fill termination measure). -/
def unseenCard (w h : ℕ) (seen : Cell → Bool) : ℕ :=
  ((bounded w h).filter (fun c => seen c = false)).card

/-- The loop invariant of the flood-fill queue loop. -/
structure FloodInv (w h : ℕ) (g : Cell → Char) (start : Cell)
    (seen : Cell → Bool) (q : List Cell) : Prop where
  start_seen : seen start = true
  q_seen : ∀ c ∈ q, seen c = true
  q_nodup : q.Nodup
  seen_reach : ∀ c, seen c = true → ∃ n, PathTo (mazeBlocking g) w h start c n
  closed : ∀ b, seen b = true → b ∉ q → ∀ dir ∈ DIRS4, inBounds w h (nbr b dir) →
      g (nbr b dir) = '0' → seen (nbr b dir) = true

/-- What is true of the seen-set once the flood queue is exhausted. -/
structure FloodPost (w h : ℕ) (g : Cell → Char) (start : Cell) (seen : Cell → Bool) : Prop where
  start_seen : seen start = true
  seen_reach : ∀ c, seen c = true → ∃ n, PathTo (mazeBlocking g) w h start c n
  closed : ∀ b, seen b = true → ∀ dir ∈ DIRS4, inBounds w h (nbr b dir) →
      g (nbr b dir) = '0' → seen (nbr b dir) = true


/-! ## Definitions: the play-state monster simulation of src/states.py

Positions, times and speeds are Python floats, embedded as real numbers;
the power operator of the audio curve is the real power.  Comparisons on
reals use classical decidability, so these definitions are noncomputable
(the game state cannot be evaluated bit-for-bit, but every concrete run
used below is settled by simp and norm_num). -/

/-- settings.py line 35. -/
noncomputable def MOVE_SPEED : ℝ := 2.6

/-- settings.py line 61. -/
noncomputable def REPLAN_INTERVAL : ℝ := 0.12

/-- settings.py line 58. -/
noncomputable def KILL_DIST : ℝ := 0.65

/-- settings.py line 62 (an int in the source). -/
def SOUND_AUDIBLE_CELLS : ℤ := 22

/-- settings.py line 63. -/
noncomputable def SOUND_CURVE : ℝ := 0.60

/-- settings.py lines 13-14, `clamp`. -/
noncomputable def clampR (v lo hi : ℝ) : ℝ := max lo (min hi v)

/-- Python `int()` on a float truncates toward zero. -/
noncomputable def pyInt (x : ℝ) : ℤ := if 0 ≤ x then ⌊x⌋ else -⌊-x⌋

/-- `math.hypot`. -/
noncomputable def hypot (a b : ℝ) : ℝ := Real.sqrt (a * a + b * b)

/-- Python list indexing with negative wrap-around (`l[-1]` is the last
element).  A fully out-of-range index raises IndexError in Python; here it
returns the default, and every theorem below stays in range. -/
def pyGet {α : Type} (l : List α) (i : ℤ) (dflt : α) : α :=
  if 0 ≤ i ∧ i < (l.length : ℤ) then l.getD i.toNat dflt
  else if -(l.length : ℤ) ≤ i ∧ i < 0 then l.getD (i + (l.length : ℤ)).toNat dflt
  else dflt

/-- `dist_map[my_cell][mx_cell]` (states.py line 548). -/
def pyGet2 (rows : List (List ℤ)) (i j : ℤ) : ℤ := pyGet (pyGet rows i []) j 0

/-- The list-of-rows view of a function-embedded distance field
(`compute_dist_map` returns the field as a list of rows in the source; the
two representations agree on in-bounds cells, `distRows_lookup`). -/
def distRows (w h : ℕ) (f : Cell → ℤ) : List (List ℤ) :=
  (List.range h).map (fun y : ℕ => (List.range w).map (fun x : ℕ => f ((x : ℤ), (y : ℤ))))

/-- `compute_dist_map(self.world, px, py, self.world.is_blocking_cell)`
(states.py lines 537, 340). -/
def worldDistMap (wd : World) (src : Cell) : Cell → ℤ :=
  compute_dist_map (fun c => wd.is_blocking_cell c.1 c.2) wd.w wd.h src

/-- entities.py lines 9-16 (the pose fields; `rotate` is not needed by the
claims). -/
structure Player where
  x : ℝ := 2.5
  y : ℝ := 2.5
  dirx : ℝ := 1.0
  diry : ℝ := 0.0
  planex : ℝ := 0.0
  planey : ℝ := 0.66

/-- entities.py lines 29-36. -/
structure Monster where
  x : ℝ := 0.0
  y : ℝ := 0.0
  active_time : ℝ := 0.0
  next_replan : ℝ := 0.0
  target : Option (ℝ × ℝ) := none
  tunnel_dist_cells : ℤ := 999

/-- world.py lines 232-236, `portal_allows`, at a real coordinate. -/
def portal_allows (wd : World) (d : String) (coord : ℝ) : Prop :=
  ∃ p ∈ wd.wrap_portals, p.1 = d ∧ ((p.2.1 : ℝ) ≤ coord ∧ coord ≤ (p.2.2 : ℝ))

open Classical in
/-- world.py lines 260-271, `_snap_to_open`: if the landing cell is blocked
search radii 1..3 in the source's loop order for the first in-bounds
non-blocking cell and snap to its centre. -/
noncomputable def snap_to_open (wd : World) (x y : ℝ) : ℝ × ℝ :=
  let mx := pyInt x
  let my := pyInt y
  if 0 ≤ mx ∧ mx < (wd.w : ℤ) ∧ 0 ≤ my ∧ my < (wd.h : ℤ) ∧
      wd.is_blocking_cell mx my = false then (x, y)
  else
    match ((List.range 3).flatMap (fun r =>
        (List.range (2 * r + 3)).flatMap (fun dy =>
          (List.range (2 * r + 3)).map (fun dx =>
            ((mx + (dx : ℤ) - ((r : ℤ) + 1), my + (dy : ℤ) - ((r : ℤ) + 1)) : Cell))))).find?
        (fun c => decide ((0 ≤ c.1 ∧ c.1 < (wd.w : ℤ) ∧ 0 ≤ c.2 ∧ c.2 < (wd.h : ℤ)) ∧
          wd.is_blocking_cell c.1 c.2 = false)) with
    | some c => ((c.1 : ℝ) + 0.5, (c.2 : ℝ) + 0.5)
    | none => (x, y)

open Classical in
/-- world.py lines 273-295, `apply_wrap`, acting on a position: the y-wrap
fires first, the x-wrap tests the (possibly already wrapped) y, and any
wrap is followed by `_snap_to_open`. -/
noncomputable def applyWrap (wd : World) (x y : ℝ) : ℝ × ℝ :=
  if wd.wrap_portals = [] then (x, y)
  else
    let y1 := if y < 0.35 ∧ portal_allows wd "N" x then y + ((wd.h : ℝ) - 1)
      else if y > (wd.h : ℝ) - 0.35 ∧ portal_allows wd "S" x then y - ((wd.h : ℝ) - 1)
      else y
    let x1 := if x < 0.35 ∧ portal_allows wd "W" y1 then x + ((wd.w : ℝ) - 1)
      else if x > (wd.w : ℝ) - 0.35 ∧ portal_allows wd "E" y1 then x - ((wd.w : ℝ) - 1)
      else x
    if (y < 0.35 ∧ portal_allows wd "N" x) ∨ (y > (wd.h : ℝ) - 0.35 ∧ portal_allows wd "S" x) ∨
        (x < 0.35 ∧ portal_allows wd "W" y1) ∨ (x > (wd.w : ℝ) - 0.35 ∧ portal_allows wd "E" y1)
    then snap_to_open wd x1 y1
    else (x1, y1)

/-- states.py lines 544-555, the replan branch: reset the replan timer,
cache the tunnel distance read from the shared distance field (999 when
-1), and aim at the centre of the cell `pick_next_cell_for_monster`
returns, or at the player's raw position if it returns None. -/
noncomputable def replanMonster (rows : List (List ℤ)) (ppos : ℝ × ℝ) (t : ℝ)
    (m : Monster) : Monster :=
  let mx_cell := pyInt m.x
  let my_cell := pyInt m.y
  let d := pyGet2 rows my_cell mx_cell
  let tgt := match pick_next_cell_for_monster rows mx_cell my_cell with
    | some n => ((n.1 : ℝ) + 0.5, (n.2 : ℝ) + 0.5)
    | none => ppos
  { m with next_replan := t + REPLAN_INTERVAL,
           tunnel_dist_cells := if d ≠ -1 then d else 999,
           target := some tgt }

open Classical in
/-- states.py lines 562-574, the movement step toward the target with
axis-independent collision. -/
noncomputable def moveMonster (wd : World) (tx ty dt mx my : ℝ) : ℝ × ℝ :=
  let mdx := tx - mx
  let mdy := ty - my
  let md := hypot mdx mdy + 1e-9
  let step := MOVE_SPEED * dt
  let mx_try := mx + (mdx / md) * step
  let my_try := my + (mdy / md) * step
  let mx2 := if wd.is_blocking_cell (pyInt mx_try) (pyInt my) = false then mx_try else mx
  let my2 := if wd.is_blocking_cell (pyInt mx2) (pyInt my_try) = false then my_try else my
  (mx2, my2)

open Classical in
/-- states.py lines 540-583, the per-monster loop body folded over the
monster list: inactive monsters are skipped untouched; otherwise replan
when due, fold the cached tunnel distance into the running minimum, fall
back to targeting the player when the target is None, move, wrap, clear
the target within 0.18 of it, and on a kill return immediately (leaving
the rest of the list unprocessed, like the source's `return`).  The result
is the updated monster list, the final `min_dist`, and the kill flag. -/
noncomputable def processMonsters (wd : World) (rows : List (List ℤ)) (ppos : ℝ × ℝ)
    (t dt : ℝ) : List Monster → ℤ → List Monster × ℤ × Bool
  | [], minDist => ([], minDist, false)
  | m :: rest, minDist =>
    if t < m.active_time then
      let r := processMonsters wd rows ppos t dt rest minDist
      (m :: r.1, r.2)
    else
      let m1 := if m.next_replan ≤ t then replanMonster rows ppos t m else m
      let minDist1 := min minDist m1.tunnel_dist_cells
      let m2 := if m1.target = none then { m1 with target := some ppos } else m1
      let tgt := m2.target.getD ppos
      let pos := moveMonster wd tgt.1 tgt.2 dt m2.x m2.y
      let pos2 := applyWrap wd pos.1 pos.2
      let m3 := { m2 with x := pos2.1, y := pos2.2 }
      let m4 := if hypot (m3.x - tgt.1) (m3.y - tgt.2) < 0.18
        then { m3 with target := none } else m3
      if hypot (ppos.1 - m4.x) (ppos.2 - m4.y) < KILL_DIST then
        (m4 :: rest, minDist1, true)
      else
        let r := processMonsters wd rows ppos t dt rest minDist1
        (m4 :: r.1, r.2)

/-- states.py lines 585-591: the drone intensity sent to the audio system
from the minimum cached tunnel distance (the power is real `rpow`). -/
noncomputable def droneValue (minDist : ℤ) : ℝ :=
  if 999 ≤ minDist then 0.12
  else 0.12 + 0.88 * (clampR (1 - (minDist : ℝ) / (SOUND_AUDIBLE_CELLS : ℝ)) 0 1) ^ SOUND_CURVE

/-- states.py lines 536-591, the whole monster phase of `PlayState.update`:
compute the BFS field from the player's cell with `is_blocking_cell` (this
happens on every frame that reaches this point), process the monsters, and
emit the drone intensity unless a kill aborted the frame. -/
noncomputable def monsterPhase (wd : World) (ppos : ℝ × ℝ) (t dt : ℝ)
    (monsters : List Monster) : List Monster × ℤ × Option ℝ :=
  let rows := distRows wd.w wd.h (worldDistMap wd (pyInt ppos.1, pyInt ppos.2))
  let r := processMonsters wd rows ppos t dt monsters 999
  (r.1, r.2.1, if r.2.2 then none else some (droneValue r.2.1))

/-- `min(m.active_time for m in self.monsters)` (states.py line 532); the
Python generator raises on an empty list, which never occurs. -/
noncomputable def minActiveTime : List Monster → ℝ
  | [] => 0
  | m :: rest => rest.foldl (fun a x => min a x.active_time) m.active_time

/-- The control flow of states.py lines 500-537: `compute_dist_map` runs on
a frame exactly when the state is "play" (line 500) and the frame time has
reached the earliest monster activation (line 532); line 537 is otherwise
unconditional. -/
def UpdateComputesDistMap (state : String) (ms : List Monster) (t : ℝ) : Prop :=
  state = "play" ∧ minActiveTime ms ≤ t

/-- A monster's replan timer has fired (`t >= m.next_replan`, line 544). -/
def ReplanDue (m : Monster) (t : ℝ) : Prop := m.next_replan ≤ t

/-! ## Definitions: serialization of src/states.py -/

/-- The per-monster dict of states.py lines 604-613 (note: the current
movement `target` is not among the stored keys). -/
structure SavedMonster where
  x : ℝ
  y : ℝ
  active_time : ℝ
  next_replan : ℝ
  tunnel_dist_cells : ℤ

/-- The dict produced by `PlayState.serialize` (states.py lines 593-624). -/
structure SaveData where
  state : String
  player : Player
  monsters : List SavedMonster
  lives : ℤ
  spawn_point : ℝ × ℝ
  zachetki : List (ℝ × ℝ)
  door_trigger : ℝ × ℝ
  door_plane : ℝ × ℝ
  door_cell : ℤ × ℤ
  door_orientation : String
  zachet_collected : List Bool
  door_open : Bool
  map_index : ℤ

/-- The PlayState fields touched by serialize/load and the monster phase. -/
structure PlayStateS where
  state : String
  world : World
  player : Player
  monsters : List Monster
  lives : ℤ
  spawn_point : ℝ × ℝ
  zachetki : List (ℝ × ℝ)
  door_trigger : ℝ × ℝ
  door_plane : ℝ × ℝ
  door_cell : ℤ × ℤ
  door_orientation : String
  zachet_collected : List Bool
  door_open : Bool
  map_index : ℤ
  monster_count : ℤ

/-- states.py lines 593-624, `PlayState.serialize`. -/
def serialize (s : PlayStateS) : SaveData :=
  ⟨"play", s.player,
    s.monsters.map (fun m => ⟨m.x, m.y, m.active_time, m.next_replan, m.tunnel_dist_cells⟩),
    s.lives, s.spawn_point, s.zachetki, s.door_trigger, s.door_plane, s.door_cell,
    s.door_orientation, s.zachet_collected, s.door_open, s.map_index⟩

/-- states.py lines 626-671, `PlayState.load_from_data`, reading a record
produced by `serialize`: every key is present, so the `.get` defaults for
scalar fields are never exercised; the behaviours that are exercised are
modelled — each monster is rebuilt with `target = None`, an empty monster
list falls back to `[Monster()]`, an empty collected list falls back to
all-False, `map_index` is reduced modulo `len(MAP_VARIANTS)`, and the
world is rebuilt from the variant list (`mapVariants` is the import-time
`MAP_VARIANTS`; `prior` is the PlayState the method mutates, whose fields
only back the never-taken defaults). -/
def loadFromData (mapVariants : List MapSpec) (prior : PlayStateS) (d : SaveData) :
    PlayStateS :=
  let idx := d.map_index % (mapVariants.length : ℤ)
  let monsters0 := d.monsters.map (fun m =>
    Monster.mk m.x m.y m.active_time m.next_replan none m.tunnel_dist_cells)
  let monsters := if monsters0.isEmpty then [Monster.mk 0 0 0 0 none 999] else monsters0
  let zc := if d.zachet_collected.isEmpty then List.replicate d.zachetki.length false
    else d.zachet_collected
  ⟨"play", World.ofSpec (mapVariants.getD idx.toNat ⟨[], []⟩), d.player, monsters,
    d.lives, d.spawn_point, d.zachetki, d.door_trigger, d.door_plane, d.door_cell,
    d.door_orientation, zc, d.door_open, idx, max 1 (monsters.length : ℤ)⟩

/-- Number of distinct walks of exactly `n` steps from `src` ending at `c`
(stepping through in-bounds, non-blocking cells).  Used to state that a
shortest path is unique. -/
def numPaths (B : Cell → Bool) (w h : ℕ) (src : Cell) : ℕ → Cell → ℕ
  | 0, c => if c = src then 1 else 0
  | n + 1, c =>
    if inBounds w h c ∧ B c = false then
      (DIRS4.map (fun d => numPaths B w h src n (c.1 - d.1, c.2 - d.2))).sum
    else 0

/-- The 6-by-5 grid used for the concrete simulation runs: a corridor along
the top, a column on the right, and a dead end at (3,3) beside the monster
cell (4,3), with the player at cell (1,3) behind the wall (2,3). -/
def cexWorld : World :=
  World.ofSpec ⟨["111111".toList, "100001".toList, "101101".toList,
    "101001".toList, "111111".toList], []⟩


/-- The monster state driving the concrete two-tick run: standing at the
centre of cell (4, 3) with the honestly cached tunnel distance 7, no
current movement target, and the next replan due at t = 2. -/
noncomputable def cexMonster : Monster :=
  { x := 4.5, y := 3.5, active_time := 0, next_replan := 2, target := none,
    tunnel_dist_cells := 7 }

/-- The monster state the first tick produces: moved straight toward the
player into the dead-end cell (3, 3), target set to the player's position
by the None-fallback, cached distance untouched. -/
noncomputable def cexM1 : Monster :=
  { x := 4.5 + ((1.5 : ℝ) - 4.5) / (3 + 1e-9) * (MOVE_SPEED * 0.5), y := 3.5,
    active_time := 0, next_replan := 2, target := some (1.5, 3.5), tunnel_dist_cells := 7 }

/-- The blocking predicate of the counterexample world as a function on cells. -/
def cexBlocking : Cell → Bool := fun c => cexWorld.is_blocking_cell c.1 c.2


/-! ## Definitions: the wall raycaster of src/renderer.py -/

/-- world.py lines 232-236, `portal_allows`, executed on an exact rational
coordinate (the renderer consults it with float arguments). -/
def portalAllowsQ (wd : World) (d : String) (coord : ℚ) : Bool :=
  wd.wrap_portals.any (fun p => p.1 == d && decide (p.2.1 ≤ coord ∧ coord ≤ p.2.2))

/-- Python int() truncation on an exact rational. -/
def pyIntQ (q : ℚ) : ℤ := if 0 ≤ q then q.floor else -((-q).floor)

/-- Python abs() on an exact rational. -/
def ratAbs (q : ℚ) : ℚ := if q < 0 then -q else q

/-- settings.py line 20. -/
def RENDER_W : ℕ := 320

/-- settings.py line 66 as an exact rational. -/
def MIN_WALL_DIST : ℚ := 0.18

/-- The per-ray constants computed by renderer.py lines 340-362. -/
structure DdaRay where
  px : ℚ
  py : ℚ
  rayDirX : ℚ
  rayDirY : ℚ
  deltaDistX : ℚ
  deltaDistY : ℚ
  stepX : ℤ
  stepY : ℤ

/-- The mutable state of the DDA loop of renderer.py lines 369-424. -/
structure DdaState where
  mapX : ℤ
  mapY : ℤ
  sideDistX : ℚ
  sideDistY : ℚ

/-- One iteration of the DDA loop (renderer.py lines 370-424): advance on
the axis with the smaller side distance, then in source order wrap (or hit
the border as a wall) at each of the four grid edges, then hit on a wall or
door cell.  `Sum.inl perp` is a hit with `perp = traveled`. -/
def ddaStep (wd : World) (r : DdaRay) (s : DdaState) : Sum ℚ DdaState :=
  let sideX := s.sideDistX < s.sideDistY
  let s1 := if sideX
    then { s with sideDistX := s.sideDistX + r.deltaDistX, mapX := s.mapX + r.stepX }
    else { s with sideDistY := s.sideDistY + r.deltaDistY, mapY := s.mapY + r.stepY }
  let traveled := if sideX then s1.sideDistX - r.deltaDistX else s1.sideDistY - r.deltaDistY
  let yres : Sum ℚ DdaState :=
    if s1.mapY < 0 then
      if portalAllowsQ wd "N" (r.px + r.rayDirX * traveled) then
        Sum.inr { s1 with mapY := (wd.h : ℤ) - 1 }
      else Sum.inl traveled
    else if (wd.h : ℤ) ≤ s1.mapY then
      if portalAllowsQ wd "S" (r.px + r.rayDirX * traveled) then
        Sum.inr { s1 with mapY := 0 }
      else Sum.inl traveled
    else Sum.inr s1
  match yres with
  | Sum.inl perp => Sum.inl perp
  | Sum.inr s2 =>
    let xres : Sum ℚ DdaState :=
      if s2.mapX < 0 then
        if portalAllowsQ wd "W" (r.py + r.rayDirY * traveled) then
          Sum.inr { s2 with mapX := (wd.w : ℤ) - 1 }
        else Sum.inl traveled
      else if (wd.w : ℤ) ≤ s2.mapX then
        if portalAllowsQ wd "E" (r.py + r.rayDirY * traveled) then
          Sum.inr { s2 with mapX := 0 }
        else Sum.inl traveled
      else Sum.inr s2
    match xres with
    | Sum.inl perp => Sum.inl perp
    | Sum.inr s3 =>
      if wd.cell_at s3.mapX s3.mapY = '1' ∨ wd.cell_at s3.mapX s3.mapY = 'D' then
        Sum.inl traveled
      else Sum.inr s3

/-- The `for _ in range(max_steps)` loop of renderer.py line 369, returning
the perpendicular distance and the number of iterations consumed on a hit,
and `none` when the budget runs out without one. -/
def ddaRun (wd : World) (r : DdaRay) : ℕ → DdaState → Option (ℚ × ℕ)
  | 0, _ => none
  | n + 1, s =>
    match ddaStep wd r s with
    | Sum.inl perp => some (perp, 1)
    | Sum.inr s1 => (ddaRun wd r n s1).map (fun q => (q.1, q.2 + 1))

/-- renderer.py lines 339-424: the ray setup for screen column `x` followed
by the DDA loop with its budget of `max_steps = world.w * world.h * 4`. -/
def castColumn (wd : World) (px py dirx diry planex planey : ℚ) (x : ℕ) : Option (ℚ × ℕ) :=
  let cameraX : ℚ := 2 * (x : ℚ) / (RENDER_W : ℚ) - 1
  let rayDirX := dirx + planex * cameraX
  let rayDirY := diry + planey * cameraX
  let mapX := pyIntQ px
  let mapY := pyIntQ py
  let deltaDistX := if 1e-12 < ratAbs rayDirX then ratAbs (1 / rayDirX) else 1e30
  let deltaDistY := if 1e-12 < ratAbs rayDirY then ratAbs (1 / rayDirY) else 1e30
  let stepX : ℤ := if rayDirX < 0 then -1 else 1
  let sideDistX := if rayDirX < 0 then (px - (mapX : ℚ)) * deltaDistX
    else ((mapX : ℚ) + 1 - px) * deltaDistX
  let stepY : ℤ := if rayDirY < 0 then -1 else 1
  let sideDistY := if rayDirY < 0 then (py - (mapY : ℚ)) * deltaDistY
    else ((mapY : ℚ) + 1 - py) * deltaDistY
  ddaRun wd ⟨px, py, rayDirX, rayDirY, deltaDistX, deltaDistY, stepX, stepY⟩
    (wd.w * wd.h * 4) ⟨mapX, mapY, sideDistX, sideDistY⟩

/-- renderer.py lines 205 and 426-430: the z-buffer entry of column `x`
starts at the 1e9 sentinel and is overwritten (clamped below by
MIN_WALL_DIST) only when the column's cast hits; `if not hit: continue`
leaves the sentinel in place. -/
def zbufferEntry (wd : World) (px py dirx diry planex planey : ℚ) (x : ℕ) : ℚ :=
  match castColumn wd px py dirx diry planex planey x with
  | some q => max q.1 MIN_WALL_DIST
  | none => 1e9

/-- A single open cell with no portals: the very first DDA step leaves the
grid and hits the border. -/
def ddaHitWorld : World := World.ofSpec ⟨["0".toList], []⟩

/-- A single open cell whose four full-width portals wrap every ray
forever: the DDA budget is exhausted without a hit. -/
def ddaWorld1 : World :=
  World.ofSpec ⟨["0".toList], [("N", 0, 1), ("S", 0, 1), ("W", 0, 1), ("E", 0, 1)]⟩


/-- The literal map spec of cexWorld, as an entry of the variant list used
by load_from_data. -/
def cexSpec : MapSpec :=
  ⟨["111111".toList, "100001".toList, "101101".toList,
    "101001".toList, "111111".toList], []⟩

/-- cexMonster heading for the centre of the wall cell (5, 3): its movement
is blocked on both axes, so one tick leaves it in place. -/
noncomputable def cexMonsterT : Monster := { cexMonster with target := some (5.5, 3.5) }

/-- A concrete play state over cexWorld used for the serialization
round-trip runs. -/
noncomputable def cexState : PlayStateS :=
  { state := "play", world := cexWorld, player := {}, monsters := [cexMonster],
    lives := 3, spawn_point := (1.5, 3.5), zachetki := [(4.5, 1.5)],
    door_trigger := (3.5, 1.5), door_plane := (3, 1), door_cell := (3, 1),
    door_orientation := "vertical", zachet_collected := [false], door_open := false,
    map_index := 0, monster_count := 1 }

/-- cexState with the monster's in-flight movement target set: the field
serialize drops. -/
noncomputable def cexStateT : PlayStateS := { cexState with monsters := [cexMonsterT] }

/-! ## Theorems -/

section BFSProof

variable {B : Cell → Bool} {w h : ℕ}

lemma nbr_ne_self {c d : Cell} (hd : d ∈ DIRS4) : nbr c d ≠ c := by
  fin_cases hd <;> simp [nbr, Prod.ext_iff]

/-- A `relaxNbr` step either leaves the accumulator unchanged or assigns
one fresh cell. -/
lemma relaxNbr_cases (c : Cell) (d : ℤ) (acc : (Cell → ℤ) × List Cell) (dir : Cell) :
    relaxNbr B w h c d acc dir = acc ∨
      (inBounds w h (nbr c dir) ∧ acc.1 (nbr c dir) = -1 ∧ B (nbr c dir) = false ∧
        relaxNbr B w h c d acc dir = (upd acc.1 (nbr c dir) (d + 1), acc.2 ++ [nbr c dir])) := by
  simp only [relaxNbr]
  split
  · next hc => exact Or.inr ⟨hc.1, hc.2.1, hc.2.2, rfl⟩
  · exact Or.inl rfl

/-- Visited entries are never modified by the relaxation fold. -/
lemma foldl_relax_stable (c : Cell) (d : ℤ) :
    ∀ (dirs : List Cell) (acc : (Cell → ℤ) × List Cell) (x : Cell), acc.1 x ≠ -1 →
      (dirs.foldl (relaxNbr B w h c d) acc).1 x = acc.1 x := by
  intro dirs
  induction dirs with
  | nil => intro acc x hx; simp
  | cons dir dirs ih =>
    intro acc x hx
    rw [List.foldl_cons]
    rcases relaxNbr_cases (B := B) (w := w) (h := h) c d acc dir with hcase | ⟨hib, hm1, hbf, hcase⟩
    · rw [hcase]; exact ih acc x hx
    · rw [hcase, ih _ x]
      · simp only [upd]
        rw [if_neg]
        intro hxn
        rw [hxn] at hx
        exact hx hm1
      · simp only [upd]
        split
        · next hxn => rw [hxn] at hx; omega
        · exact hx

/-- Full characterisation of one pop's relaxation fold: the queue is
extended by a list `ps` of freshly assigned cells, every fresh cell gets
value `d + 1`, everything else is untouched, and afterwards every
in-bounds non-blocking neighbour of `c` (in the processed direction list)
is visited. -/
lemma foldl_relax_spec (c : Cell) (d : ℤ) (hd : 0 ≤ d) (dirs : List Cell) :
    ∀ (dist : Cell → ℤ) (q : List Cell),
      ∃ ps : List Cell,
        (dirs.foldl (relaxNbr B w h c d) (dist, q)).2 = q ++ ps ∧
        ps.Nodup ∧
        (∀ x ∈ ps, dist x = -1 ∧ inBounds w h x ∧ B x = false ∧ ∃ dir ∈ dirs, x = nbr c dir) ∧
        (∀ x, x ∉ ps → (dirs.foldl (relaxNbr B w h c d) (dist, q)).1 x = dist x) ∧
        (∀ x ∈ ps, (dirs.foldl (relaxNbr B w h c d) (dist, q)).1 x = d + 1) ∧
        (∀ dir ∈ dirs, inBounds w h (nbr c dir) → B (nbr c dir) = false →
          (dirs.foldl (relaxNbr B w h c d) (dist, q)).1 (nbr c dir) ≠ -1) := by
  induction dirs with
  | nil =>
    intro dist q
    exact ⟨[], by simp, by simp, by simp, by simp, by simp, by simp⟩
  | cons dir dirs ih =>
    intro dist q
    rcases relaxNbr_cases (B := B) (w := w) (h := h) c d (dist, q) dir with hcase | ⟨hib, hm1, hbf, hcase⟩
    · -- no assignment for this direction
      obtain ⟨ps, h1, h2, h3, h4, h5, h6⟩ := ih dist q
      refine ⟨ps, ?_, h2, ?_, ?_, ?_, ?_⟩
      · rw [List.foldl_cons, hcase]; exact h1
      · intro x hx
        obtain ⟨ha, hb, hc, dir', hd', he⟩ := h3 x hx
        exact ⟨ha, hb, hc, dir', List.mem_cons_of_mem _ hd', he⟩
      · intro x hx; rw [List.foldl_cons, hcase]; exact h4 x hx
      · intro x hx; rw [List.foldl_cons, hcase]; exact h5 x hx
      · intro dir' hdir' hib' hbf'
        rw [List.foldl_cons, hcase]
        rcases List.mem_cons.mp hdir' with heq | hmem
        · subst heq
          -- the condition failed though in-bounds and non-blocking,
          -- so the neighbour was already visited
          have hne : dist (nbr c dir') ≠ -1 := by
            intro hm
            have : relaxNbr B w h c d (dist, q) dir'
                = (upd dist (nbr c dir') (d + 1), q ++ [nbr c dir']) := by
              unfold relaxNbr
              rw [if_pos ⟨hib', hm, hbf'⟩]
            rw [this] at hcase
            have := congrArg Prod.snd hcase
            simp at this
          rw [foldl_relax_stable c d dirs (dist, q) _ hne]
          exact hne
        · exact h6 dir' hmem hib' hbf'
    · -- this direction assigns the fresh cell n := nbr c dir
      rw [List.foldl_cons, hcase]
      obtain ⟨ps, h1, h2, h3, h4, h5, h6⟩ := ih (upd dist (nbr c dir) (d + 1)) (q ++ [nbr c dir])
      have hn_notin : nbr c dir ∉ ps := by
        intro hmem
        have := (h3 _ hmem).1
        simp [upd] at this
        omega
      refine ⟨nbr c dir :: ps, ?_, ?_, ?_, ?_, ?_, ?_⟩
      · rw [h1, List.append_assoc, List.singleton_append]
      · exact List.nodup_cons.mpr ⟨hn_notin, h2⟩
      · intro x hx
        rcases List.mem_cons.mp hx with heq | hmem
        · subst heq
          exact ⟨hm1, hib, hbf, dir, List.mem_cons_self _ _, rfl⟩
        · obtain ⟨ha, hb, hc, dir', hd', he⟩ := h3 x hmem
          have hxne : x ≠ nbr c dir := by
            intro hxeq
            rw [hxeq] at ha
            simp [upd] at ha
            omega
          refine ⟨?_, hb, hc, dir', List.mem_cons_of_mem _ hd', he⟩
          simpa only [upd, if_neg hxne] using ha
      · intro x hx
        have hx1 : x ∉ ps := fun hm => hx (List.mem_cons_of_mem _ hm)
        have hx2 : x ≠ nbr c dir := fun hm => hx (hm ▸ List.mem_cons_self _ _)
        rw [h4 x hx1]
        simp only [upd, if_neg hx2]
      · intro x hx
        rcases List.mem_cons.mp hx with heq | hmem
        · subst heq
          rw [h4 _ hn_notin]
          simp [upd]
        · exact h5 x hmem
      · intro dir' hdir' hib' hbf'
        rcases List.mem_cons.mp hdir' with heq | hmem
        · subst heq
          rw [h4 _ hn_notin]
          simp [upd]
          omega
        · exact h6 dir' hmem hib' hbf'

lemma mem_bounded {w h : ℕ} {c : Cell} : c ∈ bounded w h ↔ inBounds w h c := by
  simp only [bounded, Finset.mem_product, Finset.mem_Icc, inBounds]
  omega

lemma card_bounded (w h : ℕ) : (bounded w h).card = w * h := by
  simp only [bounded, Finset.card_product, Int.card_Icc]
  norm_num

lemma unvis_add_vis (w h : ℕ) (dist : Cell → ℤ) :
    unvisCard w h dist + visCard w h dist = w * h := by
  have := Finset.filter_card_add_filter_neg_card_eq_card
    (s := bounded w h) (p := fun c => dist c = -1)
  simp only [unvisCard, visCard]
  rw [← card_bounded w h]
  exact this

lemma visCard_le (w h : ℕ) (dist : Cell → ℤ) : visCard w h dist ≤ w * h := by
  have := unvis_add_vis w h dist
  omega

lemma BfsInv.toPost {B : Cell → Bool} {w h : ℕ} {src : Cell} {dist : Cell → ℤ}
    (hinv : BfsInv B w h src dist []) : BfsPost B w h src dist := by
  refine ⟨hinv.src_zero, hinv.vis_path, hinv.vis_dom, ?_, ?_⟩
  · intro c hc
    have h1 := hinv.vis_lt c hc
    have h2 := visCard_le w h dist
    omega
  · intro b hb
    exact hinv.closed b hb (by simp)

/-- Card bookkeeping for one pop: the freshly assigned cells move from the
unvisited to the visited count. -/
lemma fold_card {w h : ℕ} {d : ℤ} (hd : 0 ≤ d) (dist dist' : Cell → ℤ) (ps : List Cell)
    (hnd : ps.Nodup)
    (hps : ∀ x ∈ ps, dist x = -1 ∧ inBounds w h x)
    (hstab : ∀ x, x ∉ ps → dist' x = dist x)
    (hval : ∀ x ∈ ps, dist' x = d + 1) :
    unvisCard w h dist' + ps.length = unvisCard w h dist ∧
      visCard w h dist' = visCard w h dist + ps.length := by
  have hchar : ∀ x, dist' x = -1 ↔ (dist x = -1 ∧ x ∉ ps) := by
    intro x
    constructor
    · intro hx
      by_cases hxps : x ∈ ps
      · rw [hval x hxps] at hx; omega
      · exact ⟨by rw [← hstab x hxps]; exact hx, hxps⟩
    · intro ⟨hx, hxps⟩
      rw [hstab x hxps]; exact hx
  have hsub : ps.toFinset ⊆ (bounded w h).filter (fun c => dist c = -1) := by
    intro x hx
    rw [List.mem_toFinset] at hx
    rw [Finset.mem_filter, mem_bounded]
    exact ⟨(hps x hx).2, (hps x hx).1⟩
  have hset : (bounded w h).filter (fun c => dist' c = -1)
      = ((bounded w h).filter (fun c => dist c = -1)) \ ps.toFinset := by
    ext x
    rw [Finset.mem_sdiff, Finset.mem_filter, Finset.mem_filter, List.mem_toFinset, hchar x]
    tauto
  have hcard : unvisCard w h dist' = unvisCard w h dist - ps.length := by
    rw [unvisCard, hset, Finset.card_sdiff hsub, List.toFinset_card_of_nodup hnd]
    rfl
  have hle : ps.length ≤ unvisCard w h dist := by
    calc ps.length = ps.toFinset.card := (List.toFinset_card_of_nodup hnd).symm
    _ ≤ _ := Finset.card_le_card hsub
  have h1 := unvis_add_vis w h dist
  have h2 := unvis_add_vis w h dist'
  omega

/-- A step of the queue loop preserves the invariant and decreases the
measure; by induction the fuelled loop reaches the queue-empty
postcondition whenever the fuel dominates the measure. -/
lemma bfsAux_post {B : Cell → Bool} {w h : ℕ} {src : Cell} :
    ∀ (fuel : ℕ) (dist : Cell → ℤ) (q : List Cell),
      BfsInv B w h src dist q →
      2 * unvisCard w h dist + q.length ≤ fuel →
      BfsPost B w h src (bfsAux B w h fuel q dist) := by
  intro fuel
  induction fuel with
  | zero =>
    intro dist q hinv hm
    have hq : q = [] := by
      cases q with
      | nil => rfl
      | cons a l => simp at hm
    subst hq
    simpa [bfsAux] using hinv.toPost
  | succ fuel ih =>
    intro dist q hinv hm
    cases q with
    | nil => simpa [bfsAux] using hinv.toPost
    | cons c rest =>
      have hcvis : dist c ≠ -1 := hinv.q_vis c (List.mem_cons_self _ _)
      have hd0 : 0 ≤ dist c := (hinv.vis_path c hcvis).1
      obtain ⟨hcrest, hrestnd⟩ := List.nodup_cons.mp hinv.q_nodup
      obtain ⟨ps, h1, h2, h3, h4, h5, h6⟩ := foldl_relax_spec c (dist c) hd0 DIRS4 dist rest
      set dist' := (DIRS4.foldl (relaxNbr B w h c (dist c)) (dist, rest)).1 with hdist'
      -- unified split of the remaining queue into a (dist c)-valued part
      -- followed by a (dist c + 1)-valued part, plus the processed bound
      obtain ⟨r1, r2, hsplit2, hr1, hr2, hprocle⟩ :
          ∃ r1 r2, rest = r1 ++ r2 ∧ (∀ x ∈ r1, dist x = dist c) ∧
            (∀ x ∈ r2, dist x = dist c + 1) ∧
            (∀ b, dist b ≠ -1 → b ∉ (c :: rest) → dist b ≤ dist c) := by
        obtain ⟨e0, q1, q2, hsplit, hq1, hq2, hproc⟩ := hinv.order
        cases q1 with
        | nil =>
          simp only [List.nil_append] at hsplit
          have hc_e : dist c = e0 + 1 := by
            apply hq2; rw [← hsplit]; exact List.mem_cons_self _ _
          refine ⟨rest, [], by simp, ?_, by simp, ?_⟩
          · intro x hx
            have : x ∈ q2 := by rw [← hsplit]; exact List.mem_cons_of_mem _ hx
            rw [hq2 x this, hc_e]
          · intro b hb hbq
            have := hproc b hb hbq
            omega
        | cons c1 t1 =>
          rw [List.cons_append] at hsplit
          obtain ⟨hcc1, hrest_eq⟩ := List.cons_eq_cons.mp hsplit
          subst hcc1
          have hc_e : dist c = e0 := hq1 c (List.mem_cons_self _ _)
          refine ⟨t1, q2, hrest_eq, ?_, ?_, ?_⟩
          · intro x hx; rw [hq1 x (List.mem_cons_of_mem _ hx), hc_e]
          · intro x hx; rw [hq2 x hx, hc_e]
          · intro b hb hbq
            have := hproc b hb hbq
            omega
      -- basic consequences of the fold characterisation
      have hps_unvis : ∀ x ∈ ps, dist x = -1 := fun x hx => (h3 x hx).1
      have hvis_stab : ∀ x, dist x ≠ -1 → dist' x = dist x := by
        intro x hx
        apply h4
        intro hxps
        exact hx (hps_unvis x hxps)
      have hvis_char : ∀ x, dist' x ≠ -1 → (x ∈ ps ∨ (dist x ≠ -1 ∧ dist' x = dist x)) := by
        intro x hx
        by_cases hxps : x ∈ ps
        · exact Or.inl hxps
        · refine Or.inr ⟨?_, h4 x hxps⟩
          rw [← h4 x hxps]; exact hx
      obtain ⟨hcard1, hcard2⟩ := fold_card hd0 dist dist' ps h2
        (fun x hx => ⟨(h3 x hx).1, (h3 x hx).2.1⟩) h4 h5
      -- reduce one step of the loop
      have hred : bfsAux B w h (fuel + 1) (c :: rest) dist
          = bfsAux B w h fuel (DIRS4.foldl (relaxNbr B w h c (dist c)) (dist, rest)).2 dist' := rfl
      rw [hred, h1]
      -- establish the invariant for the new state
      have hinv' : BfsInv B w h src dist' (rest ++ ps) := by
        refine ⟨?_, ?_, ?_, ?_, ?_, ?_, ?_, ?_⟩
        · rw [hvis_stab src (by rw [hinv.src_zero]; omega)]
          exact hinv.src_zero
        · intro x hx
          by_cases hxps : x ∈ ps
          · have hval := h5 x hxps
            refine ⟨by omega, ?_⟩
            obtain ⟨-, hib, hBf, dir, hdir, hxeq⟩ := h3 x hxps
            have hpathc := (hinv.vis_path c hcvis).2
            have htn : (dist' x).toNat = (dist c).toNat + 1 := by omega
            rw [htn, hxeq]
            exact PathTo.step hpathc hdir (hxeq ▸ hib) (hxeq ▸ hBf)
          · have heq := h4 x hxps
            rw [heq] at hx ⊢
            exact hinv.vis_path x hx
        · intro x hx
          rcases List.mem_append.mp hx with hx | hx
          · have := hinv.q_vis x (List.mem_cons_of_mem _ hx)
            rw [hvis_stab x this]; exact this
          · rw [h5 x hx]; omega
        · refine List.Nodup.append hrestnd h2 ?_
          intro x hx1 hx2
          exact (hinv.q_vis x (List.mem_cons_of_mem _ hx1)) (hps_unvis x hx2)
        · intro x hx
          rcases hvis_char x hx with hxps | ⟨hv, heq⟩
          · exact Or.inr (h3 x hxps).2.1
          · exact hinv.vis_dom x hv
        · intro x hx
          have hvc : (visCard w h dist' : ℤ) = (visCard w h dist : ℤ) + ps.length := by
            rw [hcard2]; push_cast; ring
          rcases hvis_char x hx with hxps | ⟨hv, heq⟩
          · have hval := h5 x hxps
            have hlen : 1 ≤ ps.length := List.length_pos.mpr (by rintro rfl; simp at hxps)
            have := hinv.vis_lt c hcvis
            have : (1 : ℤ) ≤ (ps.length : ℤ) := by exact_mod_cast hlen
            omega
          · rw [heq]
            have := hinv.vis_lt x hv
            have : (0 : ℤ) ≤ (ps.length : ℤ) := by positivity
            omega
        · intro b hb hbq dir hdir hib hBf
          have hbps : b ∉ ps := fun hm => hbq (List.mem_append.mpr (Or.inr hm))
          have hbrest : b ∉ rest := fun hm => hbq (List.mem_append.mpr (Or.inl hm))
          have hbv : dist b ≠ -1 := by rw [← h4 b hbps]; exact hb
          have hbeq : dist' b = dist b := h4 b hbps
          by_cases hbc : b = c
          · subst hbc
            have hnne := h6 dir hdir hib hBf
            refine ⟨hnne, ?_⟩
            by_cases hnps : nbr b dir ∈ ps
            · rw [h5 _ hnps, hbeq]
            · have hneq := h4 _ hnps
              have hnv : dist (nbr b dir) ≠ -1 := by rw [← hneq]; exact hnne
              rw [hneq, hbeq]
              by_cases hnrest : nbr b dir ∈ rest
              · rw [hsplit2] at hnrest
                rcases List.mem_append.mp hnrest with hx | hx
                · rw [hr1 _ hx]; omega
                · rw [hr2 _ hx]
              · have hnc : nbr b dir ≠ b := nbr_ne_self hdir
                have := hprocle (nbr b dir) hnv (by
                  intro hmem
                  rcases List.mem_cons.mp hmem with heq | hmem
                  · exact hnc heq
                  · exact hnrest hmem)
                omega
          · have hbq' : b ∉ c :: rest := by
              intro hmem
              rcases List.mem_cons.mp hmem with heq | hmem
              · exact hbc heq
              · exact hbrest hmem
            obtain ⟨hnv, hnle⟩ := hinv.closed b hbv hbq' dir hdir hib hBf
            rw [hbeq, hvis_stab _ hnv]
            exact ⟨hnv, hnle⟩
        · refine ⟨dist c, r1, r2 ++ ps, by rw [hsplit2, List.append_assoc], ?_, ?_, ?_⟩
          · intro x hx
            have hxv : dist x = dist c := hr1 x hx
            rw [hvis_stab x (by rw [hxv]; exact hcvis), hxv]
          · intro x hx
            rcases List.mem_append.mp hx with hx | hx
            · have hxv : dist x = dist c + 1 := hr2 x hx
              rw [hvis_stab x (by rw [hxv]; omega), hxv]
            · exact h5 x hx
          · intro b hb hbq
            have hbps : b ∉ ps := fun hm => hbq (List.mem_append.mpr (Or.inr hm))
            have hbrest : b ∉ rest := fun hm => hbq (List.mem_append.mpr (Or.inl hm))
            have hbeq : dist' b = dist b := h4 b hbps
            have hbv : dist b ≠ -1 := by rw [← hbeq]; exact hb
            rw [hbeq]
            by_cases hbc : b = c
            · rw [hbc]
            · refine hprocle b hbv ?_
              intro hmem
              rcases List.mem_cons.mp hmem with heq | hmem
              · exact hbc heq
              · exact hbrest hmem
      -- measure decreases
      have hmeas : 2 * unvisCard w h dist' + (rest ++ ps).length ≤ fuel := by
        rw [List.length_append]
        simp only [List.length_cons] at hm
        omega
      exact ih dist' (rest ++ ps) hinv' hmeas

/-- The BFS postcondition holds of `compute_dist_map` for any in-bounds
source (the initial state satisfies the invariant and the fuel `2*w*h + 1`
dominates the initial measure). -/
lemma compute_dist_map_post (B : Cell → Bool) (w h : ℕ) (src : Cell)
    (hs : inBounds w h src) :
    BfsPost B w h src (compute_dist_map B w h src) := by
  have hzero : upd (fun _ => (-1 : ℤ)) src 0 src = 0 := by simp [upd]
  have hother : ∀ x, x ≠ src → upd (fun _ => (-1 : ℤ)) src 0 x = -1 := by
    intro x hx; simp [upd, hx]
  apply bfsAux_post
  · refine ⟨hzero, ?_, ?_, by simp, ?_, ?_, ?_, ?_⟩
    · intro c hc
      by_cases hcs : c = src
      · subst hcs
        rw [hzero]
        exact ⟨le_refl _, PathTo.refl⟩
      · exact absurd (hother c hcs) hc
    · intro c hc
      rcases List.mem_singleton.mp hc with rfl
      rw [hzero]; omega
    · intro c hc
      by_cases hcs : c = src
      · exact Or.inl hcs
      · exact absurd (hother c hcs) hc
    · intro c hc
      by_cases hcs : c = src
      · rw [hcs, hzero]
        have hpos : 0 < visCard w h (upd (fun _ => (-1 : ℤ)) src 0) :=
          Finset.card_pos.mpr
            ⟨src, Finset.mem_filter.mpr ⟨mem_bounded.mpr hs, by rw [hzero]; omega⟩⟩
        omega
      · exact absurd (hother c hcs) hc
    · intro b hb hbq
      by_cases hbs : b = src
      · exact absurd (List.mem_singleton.mpr hbs) hbq
      · exact absurd (hother b hbs) hb
    · refine ⟨0, [src], [], by simp, ?_, by simp, ?_⟩
      · intro c hc
        rcases List.mem_singleton.mp hc with rfl
        exact hzero
      · intro b hb hbq
        by_cases hbs : b = src
        · exact absurd (List.mem_singleton.mpr hbs) hbq
        · exact absurd (hother b hbs) hb
  · have hle : unvisCard w h (upd (fun _ => (-1 : ℤ)) src 0) ≤ w * h := by
      calc unvisCard w h _ ≤ (bounded w h).card := Finset.card_filter_le _ _
      _ = w * h := card_bounded w h
    simp only [List.length_singleton]
    have h2 : 2 * w * h = 2 * (w * h) := by ring
    omega

/-- Completeness with minimality: any walk to `c` of length `n` forces the
field value at `c` to be set and at most `n`. -/
lemma BfsPost.reach_le {B : Cell → Bool} {w h : ℕ} {src : Cell} {dist : Cell → ℤ}
    (hp : BfsPost B w h src dist) :
    ∀ {c : Cell} {n : ℕ}, PathTo B w h src c n → dist c ≠ -1 ∧ dist c ≤ (n : ℤ) := by
  intro c n hpath
  induction hpath with
  | refl =>
    rw [hp.src_zero]
    exact ⟨by omega, Int.natCast_nonneg _⟩
  | step hp' hdir hib hBf ih =>
    obtain ⟨hne, hle⟩ := ih
    obtain ⟨hne2, hle2⟩ := hp.closed _ hne _ hdir hib hBf
    refine ⟨hne2, ?_⟩
    push_cast
    omega

lemma PathTo.eq_of_zero {B : Cell → Bool} {w h : ℕ} {src c : Cell}
    (hp : PathTo B w h src c 0) : c = src := by
  cases hp
  rfl

/-- The relaxation fold never consults the blocking predicate at a cell that
is already visited; in particular changing the predicate at the (always
visited) source changes nothing. -/
lemma foldl_relax_congr_src (B : Cell → Bool) (w h : ℕ) (src c : Cell) (d : ℤ) :
    ∀ (dirs : List Cell) (acc : (Cell → ℤ) × List Cell), acc.1 src ≠ -1 →
      dirs.foldl (relaxNbr B w h c d) acc
        = dirs.foldl (relaxNbr (fun x => if x = src then false else B x) w h c d) acc := by
  intro dirs
  induction dirs with
  | nil => intro acc _; simp
  | cons dir dirs ih =>
    intro acc hsrc
    rw [List.foldl_cons, List.foldl_cons]
    have hstep : relaxNbr B w h c d acc dir
        = relaxNbr (fun x => if x = src then false else B x) w h c d acc dir := by
      simp only [relaxNbr]
      by_cases hn : nbr c dir = src
      · rw [hn]
        rw [if_neg (fun hcond => hsrc hcond.2.1), if_neg (fun hcond => hsrc hcond.2.1)]
      · simp only [if_neg hn]
    rw [← hstep]
    apply ih
    rcases relaxNbr_cases (B := B) (w := w) (h := h) c d acc dir with hc | ⟨hib, hm1, hBf, hc⟩
    · rw [hc]; exact hsrc
    · rw [hc]
      simp only [upd]
      split
      · next hss =>
        rw [hss] at hsrc
        exact absurd hm1 hsrc
      · exact hsrc
    

/-- The queue loop is insensitive to the blocking predicate's value at the
source, as long as the source stays visited (which it always is). -/
lemma bfsAux_congr_src (B : Cell → Bool) (w h : ℕ) (src : Cell) :
    ∀ (fuel : ℕ) (q : List Cell) (dist : Cell → ℤ), dist src ≠ -1 →
      bfsAux B w h fuel q dist
        = bfsAux (fun x => if x = src then false else B x) w h fuel q dist := by
  intro fuel
  induction fuel with
  | zero => intro q dist _; rfl
  | succ fuel ih =>
    intro q dist hsrc
    cases q with
    | nil => rfl
    | cons c rest =>
      have hred : bfsAux B w h (fuel + 1) (c :: rest) dist
          = bfsAux B w h fuel (DIRS4.foldl (relaxNbr B w h c (dist c)) (dist, rest)).2
              (DIRS4.foldl (relaxNbr B w h c (dist c)) (dist, rest)).1 := rfl
      have hred2 : bfsAux (fun x => if x = src then false else B x) w h (fuel + 1) (c :: rest) dist
          = bfsAux (fun x => if x = src then false else B x) w h fuel
              (DIRS4.foldl (relaxNbr (fun x => if x = src then false else B x) w h c (dist c)) (dist, rest)).2
              (DIRS4.foldl (relaxNbr (fun x => if x = src then false else B x) w h c (dist c)) (dist, rest)).1 := rfl
      rw [hred, hred2, ← foldl_relax_congr_src B w h src c (dist c) DIRS4 (dist, rest) hsrc]
      apply ih
      exact (foldl_relax_stable c (dist c) DIRS4 (dist, rest) src hsrc).symm ▸ hsrc

lemma compute_dist_map_congr_src (B : Cell → Bool) (w h : ℕ) (src : Cell) :
    compute_dist_map B w h src
      = compute_dist_map (fun x => if x = src then false else B x) w h src := by
  unfold compute_dist_map
  apply bfsAux_congr_src
  simp [upd]

/-- C2: for every grid size, in-bounds source cell and blocking predicate,
`compute_dist_map` assigns every reachable cell (through 4-connected
non-blocking entered cells) exactly the minimum hop count from the source,
the source gets 0, and exactly the unreachable cells hold -1. -/
theorem compute_dist_map_correct (B : Cell → Bool) (w h : ℕ) (src : Cell)
    (hs : inBounds w h src) (c : Cell) :
    (compute_dist_map B w h src c ≠ -1 →
      0 ≤ compute_dist_map B w h src c ∧
      PathTo B w h src c (compute_dist_map B w h src c).toNat ∧
      ∀ n, PathTo B w h src c n → compute_dist_map B w h src c ≤ (n : ℤ)) ∧
    (compute_dist_map B w h src c = -1 → ∀ n, ¬ PathTo B w h src c n) ∧
    (∀ n, PathTo B w h src c n → compute_dist_map B w h src c ≠ -1) := by
  have hp := compute_dist_map_post B w h src hs
  refine ⟨?_, ?_, ?_⟩
  · intro hne
    exact ⟨(hp.vis_path c hne).1, (hp.vis_path c hne).2, fun n hn => (hp.reach_le hn).2⟩
  · intro heq n hn
    exact (hp.reach_le hn).1 heq
  · intro n hn
    exact (hp.reach_le hn).1

theorem compute_dist_map_correct_witness :
    inBounds 2 1 ((0 : ℤ), (0 : ℤ)) ∧
    ((compute_dist_map (fun _ => false) 2 1 (0, 0) (1, 0) ≠ -1 →
      0 ≤ compute_dist_map (fun _ => false) 2 1 (0, 0) (1, 0) ∧
      PathTo (fun _ => false) 2 1 (0, 0) (1, 0)
        (compute_dist_map (fun _ => false) 2 1 (0, 0) (1, 0)).toNat ∧
      ∀ n, PathTo (fun _ => false) 2 1 (0, 0) (1, 0) n →
        compute_dist_map (fun _ => false) 2 1 (0, 0) (1, 0) ≤ (n : ℤ)) ∧
    (compute_dist_map (fun _ => false) 2 1 (0, 0) (1, 0) = -1 →
      ∀ n, ¬ PathTo (fun _ => false) 2 1 (0, 0) (1, 0) n) ∧
    (∀ n, PathTo (fun _ => false) 2 1 (0, 0) (1, 0) n →
      compute_dist_map (fun _ => false) 2 1 (0, 0) (1, 0) ≠ -1)) :=
  ⟨by decide, compute_dist_map_correct (fun _ => false) 2 1 (0, 0) (by decide) (1, 0)⟩

/-- C9: `compute_dist_map` applies the blocking predicate only to cells
being entered: the source always gets distance 0, its in-bounds
non-blocking neighbours get distance 1, and the whole field is unchanged
when the predicate's value at the source is replaced by `false` — so the
field is usable even when the player stands on a blocking (closed-door)
cell. -/
theorem compute_dist_map_source_exempt (B : Cell → Bool) (w h : ℕ) (src : Cell)
    (hs : inBounds w h src) :
    compute_dist_map B w h src src = 0 ∧
    (∀ dir ∈ DIRS4, inBounds w h (nbr src dir) → B (nbr src dir) = false →
      compute_dist_map B w h src (nbr src dir) = 1) ∧
    compute_dist_map B w h src
      = compute_dist_map (fun x => if x = src then false else B x) w h src := by
  have hp := compute_dist_map_post B w h src hs
  refine ⟨hp.src_zero, ?_, compute_dist_map_congr_src B w h src⟩
  intro dir hdir hib hBf
  have hpath1 : PathTo B w h src (nbr src dir) 1 :=
    PathTo.step PathTo.refl hdir hib hBf
  obtain ⟨hne, hle⟩ := hp.reach_le hpath1
  have h0 := (hp.vis_path _ hne).1
  by_cases hz : compute_dist_map B w h src (nbr src dir) = 0
  · exfalso
    have hpth := (hp.vis_path _ hne).2
    rw [hz] at hpth
    have : nbr src dir = src := PathTo.eq_of_zero (by simpa using hpth)
    exact nbr_ne_self hdir this
  · push_cast at hle
    omega

theorem compute_dist_map_source_exempt_witness :
    inBounds 3 1 ((1 : ℤ), (0 : ℤ)) ∧
    (compute_dist_map (fun c => decide (c = (1, 0))) 3 1 (1, 0) (1, 0) = 0 ∧
    (∀ dir ∈ DIRS4, inBounds 3 1 (nbr (1, 0) dir) →
      (fun c => decide (c = ((1 : ℤ), (0 : ℤ)))) (nbr (1, 0) dir) = false →
      compute_dist_map (fun c => decide (c = (1, 0))) 3 1 (1, 0) (nbr (1, 0) dir) = 1) ∧
    compute_dist_map (fun c => decide (c = (1, 0))) 3 1 (1, 0)
      = compute_dist_map
          (fun x => if x = (1, 0) then false else decide (x = ((1 : ℤ), (0 : ℤ)))) 3 1 (1, 0)) :=
  ⟨by decide,
    compute_dist_map_source_exempt (fun c => decide (c = (1, 0))) 3 1 (1, 0) (by decide)⟩

end BFSProof


lemma pickStep_eq (dist : List (List ℤ)) (m : Cell) (acc : Option Cell × ℤ) (dir : Cell) :
    pickStep dist m acc dir =
      if candNbr dist acc.2 (nbr m dir) then (some (nbr m dir), fieldAt dist (nbr m dir))
      else acc := by
  simp only [pickStep, candNbr]
  by_cases h1 : fieldInBounds dist (nbr m dir)
  · simp only [h1, if_true, true_and]
  · simp only [h1, if_false, false_and]

/-- After scanning `dirs` the accumulator either is unchanged (no neighbour
improves on `bd`) or holds the first neighbour attaining the minimum
improving value. -/
lemma pickAux_spec (dist : List (List ℤ)) (m : Cell) :
    ∀ (dirs : List Cell) (best : Option Cell) (bd : ℤ),
      (dirs.foldl (pickStep dist m) (best, bd) = (best, bd) ∧
        ∀ dir ∈ dirs, ¬ candNbr dist bd (nbr m dir)) ∨
      (∃ l1 dir l2, dirs = l1 ++ dir :: l2 ∧
        (dirs.foldl (pickStep dist m) (best, bd)).1 = some (nbr m dir) ∧
        (dirs.foldl (pickStep dist m) (best, bd)).2 = fieldAt dist (nbr m dir) ∧
        candNbr dist bd (nbr m dir) ∧
        (∀ d2 ∈ l1, candNbr dist bd (nbr m d2) →
          fieldAt dist (nbr m dir) < fieldAt dist (nbr m d2)) ∧
        (∀ d2 ∈ l2, candNbr dist bd (nbr m d2) →
          fieldAt dist (nbr m dir) ≤ fieldAt dist (nbr m d2))) := by
  intro dirs
  induction dirs with
  | nil => intro best bd; exact Or.inl ⟨rfl, by simp⟩
  | cons dir dirs ih =>
    intro best bd
    rw [List.foldl_cons, pickStep_eq]
    by_cases hc : candNbr dist bd (nbr m dir)
    · rw [if_pos hc]
      rcases ih (some (nbr m dir)) (fieldAt dist (nbr m dir)) with ⟨hr, hno⟩ | ⟨l1, d, l2, hsplit, hr1, hr2, hcd, hstrict, hle⟩
      · refine Or.inr ⟨[], dir, dirs, by simp, ?_, ?_, hc, by simp, ?_⟩
        · rw [hr]
        · rw [hr]
        · intro d2 hd2 hcd2
          have := hno d2 hd2
          simp only [candNbr, not_and, not_lt] at this
          exact this hcd2.1 hcd2.2.1
      · refine Or.inr ⟨dir :: l1, d, l2, by rw [hsplit, List.cons_append], hr1, hr2, ?_, ?_, ?_⟩
        · exact ⟨hcd.1, hcd.2.1, lt_trans hcd.2.2 hc.2.2⟩
        · intro d2 hd2 hcd2
          rcases List.mem_cons.mp hd2 with rfl | hd2
          · exact hcd.2.2
          · by_cases hlt : fieldAt dist (nbr m d2) < fieldAt dist (nbr m dir)
            · exact hstrict d2 hd2 ⟨hcd2.1, hcd2.2.1, hlt⟩
            · calc fieldAt dist (nbr m d) < fieldAt dist (nbr m dir) := hcd.2.2
              _ ≤ fieldAt dist (nbr m d2) := not_lt.mp hlt
        · intro d2 hd2 hcd2
          by_cases hlt : fieldAt dist (nbr m d2) < fieldAt dist (nbr m dir)
          · exact hle d2 hd2 ⟨hcd2.1, hcd2.2.1, hlt⟩
          · exact le_of_lt (lt_of_lt_of_le hcd.2.2 (not_lt.mp hlt))
    · rw [if_neg hc]
      rcases ih best bd with ⟨hr, hno⟩ | ⟨l1, d, l2, hsplit, hr1, hr2, hcd, hstrict, hle⟩
      · refine Or.inl ⟨hr, ?_⟩
        intro d2 hd2
        rcases List.mem_cons.mp hd2 with rfl | hd2
        · exact hc
        · exact hno d2 hd2
      · refine Or.inr ⟨dir :: l1, d, l2, by rw [hsplit, List.cons_append], hr1, hr2, hcd, ?_, hle⟩
        intro d2 hd2 hcd2
        rcases List.mem_cons.mp hd2 with rfl | hd2
        · exact absurd hcd2 hc
        · exact hstrict d2 hd2 hcd2

lemma eligibleNbr_eq_cand (dist : List (List ℤ)) (c : Cell) :
    eligibleNbr dist c ↔ candNbr dist (10 ^ 9) c := Iff.rfl

lemma split_DIRS4 {l1 l2 : List Cell} {dir : Cell} (hs : DIRS4 = l1 ++ dir :: l2) :
    (l1 = [] ∧ dir = (1, 0) ∧ l2 = [(-1, 0), (0, 1), (0, -1)]) ∨
    (l1 = [(1, 0)] ∧ dir = (-1, 0) ∧ l2 = [(0, 1), (0, -1)]) ∨
    (l1 = [(1, 0), (-1, 0)] ∧ dir = (0, 1) ∧ l2 = [(0, -1)]) ∨
    (l1 = [(1, 0), (-1, 0), (0, 1)] ∧ dir = (0, -1) ∧ l2 = []) := by
  rcases l1 with _ | ⟨a1, _ | ⟨a2, _ | ⟨a3, _ | ⟨a4, l1⟩⟩⟩⟩ <;>
    simp only [DIRS4, List.nil_append, List.cons_append, List.cons.injEq] at hs
  · exact Or.inl ⟨rfl, hs.1.symm, hs.2.symm⟩
  · exact Or.inr (Or.inl ⟨by rw [hs.1], hs.2.1.symm, hs.2.2.symm⟩)
  · exact Or.inr (Or.inr (Or.inl ⟨by rw [hs.1, hs.2.1], hs.2.2.1.symm, hs.2.2.2.symm⟩))
  · exact Or.inr (Or.inr (Or.inr ⟨by rw [hs.1, hs.2.1, hs.2.2.1], hs.2.2.2.1.symm, hs.2.2.2.2.symm⟩))
  · exfalso
    have := hs.2.2.2.2
    exact absurd this (by simp)

lemma pick_spec (dist : List (List ℤ)) (mx my : ℤ) :
    (pick_next_cell_for_monster dist mx my = none ↔
      ¬ eligibleNbr dist (mx + 1, my) ∧ ¬ eligibleNbr dist (mx - 1, my) ∧
      ¬ eligibleNbr dist (mx, my + 1) ∧ ¬ eligibleNbr dist (mx, my - 1)) ∧
    (∀ c, pick_next_cell_for_monster dist mx my = some c →
      eligibleNbr dist c ∧
      (c = (mx + 1, my) ∨ c = (mx - 1, my) ∨ c = (mx, my + 1) ∨ c = (mx, my - 1)) ∧
      (eligibleNbr dist (mx + 1, my) → fieldAt dist c ≤ fieldAt dist (mx + 1, my)) ∧
      (eligibleNbr dist (mx - 1, my) → fieldAt dist c ≤ fieldAt dist (mx - 1, my)) ∧
      (eligibleNbr dist (mx, my + 1) → fieldAt dist c ≤ fieldAt dist (mx, my + 1)) ∧
      (eligibleNbr dist (mx, my - 1) → fieldAt dist c ≤ fieldAt dist (mx, my - 1)) ∧
      (c ≠ (mx + 1, my) → eligibleNbr dist (mx + 1, my) →
        fieldAt dist c < fieldAt dist (mx + 1, my)) ∧
      ((c = (mx, my + 1) ∨ c = (mx, my - 1)) → eligibleNbr dist (mx - 1, my) →
        fieldAt dist c < fieldAt dist (mx - 1, my)) ∧
      (c = (mx, my - 1) → eligibleNbr dist (mx, my + 1) →
        fieldAt dist c < fieldAt dist (mx, my + 1))) := by
  have hn0 : nbr (mx, my) (1, 0) = (mx + 1, my) := by simp [nbr]
  have hn1 : nbr (mx, my) (-1, 0) = (mx - 1, my) := by simp [nbr, Prod.ext_iff]; omega
  have hn2 : nbr (mx, my) (0, 1) = (mx, my + 1) := by simp [nbr]
  have hn3 : nbr (mx, my) (0, -1) = (mx, my - 1) := by simp [nbr, Prod.ext_iff]; omega
  constructor
  · constructor
    · intro hnone
      rcases pickAux_spec dist (mx, my) DIRS4 none (10 ^ 9) with ⟨-, hno⟩ | ⟨l1, dir, l2, -, hr1, -, -, -, -⟩
      · refine ⟨?_, ?_, ?_, ?_⟩ <;>
          [have := hno (1, 0) (by simp [DIRS4]); have := hno (-1, 0) (by simp [DIRS4]);
           have := hno (0, 1) (by simp [DIRS4]); have := hno (0, -1) (by simp [DIRS4])]
        · rw [hn0] at this; exact this
        · rw [hn1] at this; exact this
        · rw [hn2] at this; exact this
        · rw [hn3] at this; exact this
      · rw [pick_next_cell_for_monster] at hnone
        rw [hnone] at hr1
        exact absurd hr1 (by simp)
    · intro ⟨he0, he1, he2, he3⟩
      rcases pickAux_spec dist (mx, my) DIRS4 none (10 ^ 9) with ⟨hr, -⟩ | ⟨l1, dir, l2, hsplit, hr1, -, hcd, -, -⟩
      · rw [pick_next_cell_for_monster, hr]
      · exfalso
        rcases split_DIRS4 hsplit with ⟨-, rfl, -⟩ | ⟨-, rfl, -⟩ | ⟨-, rfl, -⟩ | ⟨-, rfl, -⟩
        · rw [hn0] at hcd; exact he0 hcd
        · rw [hn1] at hcd; exact he1 hcd
        · rw [hn2] at hcd; exact he2 hcd
        · rw [hn3] at hcd; exact he3 hcd
  · intro c hc
    rcases pickAux_spec dist (mx, my) DIRS4 none (10 ^ 9) with ⟨hr, -⟩ | ⟨l1, dir, l2, hsplit, hr1, -, hcd, hstrict, hle⟩
    · rw [pick_next_cell_for_monster, hr] at hc
      exact absurd hc (by simp)
    · rw [pick_next_cell_for_monster, hr1] at hc
      have hceq : c = nbr (mx, my) dir := (Option.some.injEq _ _ ▸ hc).symm
      have hd01 : ((mx + 1, my) : Cell) ≠ (mx - 1, my) := by simp [Prod.ext_iff]; omega
      rcases split_DIRS4 hsplit with ⟨rfl, rfl, rfl⟩ | ⟨rfl, rfl, rfl⟩ | ⟨rfl, rfl, rfl⟩ | ⟨rfl, rfl, rfl⟩
      · -- chosen (1,0): first in list, others are later entries
        rw [hn0] at hceq hcd
        subst hceq
        refine ⟨hcd, Or.inl rfl, fun _ => le_refl _, ?_, ?_, ?_, ?_, ?_, ?_⟩
        · intro he; have := hle (-1, 0) (by simp) (by rw [hn1]; exact he); rwa [hn0, hn1] at this
        · intro he; have := hle (0, 1) (by simp) (by rw [hn2]; exact he); rwa [hn0, hn2] at this
        · intro he; have := hle (0, -1) (by simp) (by rw [hn3]; exact he); rwa [hn0, hn3] at this
        · intro hne; exact absurd rfl hne
        · intro hor
          exfalso
          rcases hor with heq | heq <;> (simp only [Prod.mk.injEq] at heq; omega)
        · intro heq
          exfalso
          simp only [Prod.mk.injEq] at heq
          omega
      · -- chosen (-1,0): (1,0) is before it, (0,1),(0,-1) after
        rw [hn1] at hceq hcd
        subst hceq
        refine ⟨hcd, Or.inr (Or.inl rfl), ?_, fun _ => le_refl _, ?_, ?_, ?_, ?_, ?_⟩
        · intro he
          have := hstrict (1, 0) (by simp) (by rw [hn0]; exact he)
          rw [hn1, hn0] at this; exact le_of_lt this
        · intro he; have := hle (0, 1) (by simp) (by rw [hn2]; exact he); rwa [hn1, hn2] at this
        · intro he; have := hle (0, -1) (by simp) (by rw [hn3]; exact he); rwa [hn1, hn3] at this
        · intro _ he
          have := hstrict (1, 0) (by simp) (by rw [hn0]; exact he)
          rwa [hn1, hn0] at this
        · intro hor
          exfalso
          rcases hor with heq | heq <;> (simp only [Prod.mk.injEq] at heq; omega)
        · intro heq
          exfalso
          simp only [Prod.mk.injEq] at heq
          omega
      · -- chosen (0,1): (1,0),(-1,0) before, (0,-1) after
        rw [hn2] at hceq hcd
        subst hceq
        refine ⟨hcd, Or.inr (Or.inr (Or.inl rfl)), ?_, ?_, fun _ => le_refl _, ?_, ?_, ?_, ?_⟩
        · intro he
          have := hstrict (1, 0) (by simp) (by rw [hn0]; exact he)
          rw [hn2, hn0] at this; exact le_of_lt this
        · intro he
          have := hstrict (-1, 0) (by simp) (by rw [hn1]; exact he)
          rw [hn2, hn1] at this; exact le_of_lt this
        · intro he; have := hle (0, -1) (by simp) (by rw [hn3]; exact he); rwa [hn2, hn3] at this
        · intro _ he
          have := hstrict (1, 0) (by simp) (by rw [hn0]; exact he)
          rwa [hn2, hn0] at this
        · intro _ he
          have := hstrict (-1, 0) (by simp) (by rw [hn1]; exact he)
          rwa [hn2, hn1] at this
        · intro heq
          exfalso
          simp only [Prod.mk.injEq] at heq
          omega
      · -- chosen (0,-1): all three others before
        rw [hn3] at hceq hcd
        subst hceq
        refine ⟨hcd, Or.inr (Or.inr (Or.inr rfl)), ?_, ?_, ?_, fun _ => le_refl _, ?_, ?_, ?_⟩
        · intro he
          have := hstrict (1, 0) (by simp) (by rw [hn0]; exact he)
          rw [hn3, hn0] at this; exact le_of_lt this
        · intro he
          have := hstrict (-1, 0) (by simp) (by rw [hn1]; exact he)
          rw [hn3, hn1] at this; exact le_of_lt this
        · intro he
          have := hstrict (0, 1) (by simp) (by rw [hn2]; exact he)
          rw [hn3, hn2] at this; exact le_of_lt this
        · intro _ he
          have := hstrict (1, 0) (by simp) (by rw [hn0]; exact he)
          rwa [hn3, hn0] at this
        · intro _ he
          have := hstrict (-1, 0) (by simp) (by rw [hn1]; exact he)
          rwa [hn3, hn1] at this
        · intro _ he
          have := hstrict (0, 1) (by simp) (by rw [hn2]; exact he)
          rwa [hn3, hn2] at this

/-- C6 amended: `pick_next_cell_for_monster` returns the 4-orthogonal
in-bounds neighbour whose field value is not -1, is below the 10^9
sentinel, and is smallest, with ties broken by the direction list order
[(1,0),(-1,0),(0,1),(0,-1)]; it returns None exactly when no neighbour
passes that eligibility test. -/
theorem pick_next_cell_characterization (dist : List (List ℤ)) (mx my : ℤ) :
    (pick_next_cell_for_monster dist mx my = none ↔
      ¬ eligibleNbr dist (mx + 1, my) ∧ ¬ eligibleNbr dist (mx - 1, my) ∧
      ¬ eligibleNbr dist (mx, my + 1) ∧ ¬ eligibleNbr dist (mx, my - 1)) ∧
    (∀ c, pick_next_cell_for_monster dist mx my = some c →
      eligibleNbr dist c ∧
      (c = (mx + 1, my) ∨ c = (mx - 1, my) ∨ c = (mx, my + 1) ∨ c = (mx, my - 1)) ∧
      (eligibleNbr dist (mx + 1, my) → fieldAt dist c ≤ fieldAt dist (mx + 1, my)) ∧
      (eligibleNbr dist (mx - 1, my) → fieldAt dist c ≤ fieldAt dist (mx - 1, my)) ∧
      (eligibleNbr dist (mx, my + 1) → fieldAt dist c ≤ fieldAt dist (mx, my + 1)) ∧
      (eligibleNbr dist (mx, my - 1) → fieldAt dist c ≤ fieldAt dist (mx, my - 1)) ∧
      (c ≠ (mx + 1, my) → eligibleNbr dist (mx + 1, my) →
        fieldAt dist c < fieldAt dist (mx + 1, my)) ∧
      ((c = (mx, my + 1) ∨ c = (mx, my - 1)) → eligibleNbr dist (mx - 1, my) →
        fieldAt dist c < fieldAt dist (mx - 1, my)) ∧
      (c = (mx, my - 1) → eligibleNbr dist (mx, my + 1) →
        fieldAt dist c < fieldAt dist (mx, my + 1))) :=
  pick_spec dist mx my

/-- C6 counterexample: on the field [[0, 10^9]] at cell (0, 0) the code
returns None even though the in-bounds neighbour (1, 0) has a field value
distinct from -1 — the 10^9 best_d sentinel filters it out, contradicting
the claim's "None exactly when every in-bounds neighbor has field value
-1". -/
theorem pick_sentinel_counterexample :
    pick_next_cell_for_monster [[0, 10 ^ 9]] 0 0 = none ∧
    fieldInBounds [[0, 10 ^ 9]] (0 + 1, 0) ∧ fieldAt [[0, 10 ^ 9]] (0 + 1, 0) ≠ -1 := by
  refine ⟨by decide, by decide, by decide⟩

theorem pick_next_cell_characterization_witness :
    pick_next_cell_for_monster [[1, 0, 2]] 1 0 = some (0, 0) ∧
    (eligibleNbr [[1, 0, 2]] (0, 0) ∧
      ((0, 0) = ((1 + 1 : ℤ), (0 : ℤ)) ∨ (0, 0) = ((1 - 1 : ℤ), (0 : ℤ)) ∨
        (0, 0) = ((1 : ℤ), (0 + 1 : ℤ)) ∨ (0, 0) = ((1 : ℤ), (0 - 1 : ℤ))) ∧
      (eligibleNbr [[1, 0, 2]] (1 + 1, 0) →
        fieldAt [[1, 0, 2]] (0, 0) ≤ fieldAt [[1, 0, 2]] (1 + 1, 0)) ∧
      (eligibleNbr [[1, 0, 2]] (1 - 1, 0) →
        fieldAt [[1, 0, 2]] (0, 0) ≤ fieldAt [[1, 0, 2]] (1 - 1, 0)) ∧
      (eligibleNbr [[1, 0, 2]] (1, 0 + 1) →
        fieldAt [[1, 0, 2]] (0, 0) ≤ fieldAt [[1, 0, 2]] (1, 0 + 1)) ∧
      (eligibleNbr [[1, 0, 2]] (1, 0 - 1) →
        fieldAt [[1, 0, 2]] (0, 0) ≤ fieldAt [[1, 0, 2]] (1, 0 - 1)) ∧
      ((0, 0) ≠ ((1 + 1 : ℤ), (0 : ℤ)) → eligibleNbr [[1, 0, 2]] (1 + 1, 0) →
        fieldAt [[1, 0, 2]] (0, 0) < fieldAt [[1, 0, 2]] (1 + 1, 0)) ∧
      (((0, 0) = ((1 : ℤ), (0 + 1 : ℤ)) ∨ (0, 0) = ((1 : ℤ), (0 - 1 : ℤ))) →
        eligibleNbr [[1, 0, 2]] (1 - 1, 0) →
        fieldAt [[1, 0, 2]] (0, 0) < fieldAt [[1, 0, 2]] (1 - 1, 0)) ∧
      ((0, 0) = ((1 : ℤ), (0 - 1 : ℤ)) → eligibleNbr [[1, 0, 2]] (1, 0 + 1) →
        fieldAt [[1, 0, 2]] (0, 0) < fieldAt [[1, 0, 2]] (1, 0 + 1))) :=
  ⟨by decide, (pick_next_cell_characterization [[1, 0, 2]] 1 0).2 (0, 0) (by decide)⟩


/-- C7: for every coordinate pair outside the grid rectangle,
`World.cell_at` returns the wall character, and `is_wall_cell` and
`is_blocking_cell` are therefore true there; in-range queries index the
array, so the array is never indexed out of range. -/
theorem cell_at_out_of_range (wd : World) (mx my : ℤ)
    (hout : mx < 0 ∨ (wd.w : ℤ) ≤ mx ∨ my < 0 ∨ (wd.h : ℤ) ≤ my) :
    wd.cell_at mx my = '1' ∧ wd.is_wall_cell mx my = true ∧
      wd.is_blocking_cell mx my = true := by
  have hcond : ¬ (0 ≤ mx ∧ mx < (wd.w : ℤ) ∧ 0 ≤ my ∧ my < (wd.h : ℤ)) := by omega
  have hc : wd.cell_at mx my = '1' := by
    rw [World.cell_at, if_neg hcond]
  refine ⟨hc, ?_, ?_⟩
  · rw [World.is_wall_cell, hc]
    decide
  · rw [World.is_blocking_cell, hc]
    decide

theorem cell_at_out_of_range_witness :
    ((-1 : ℤ) < 0 ∨ ((World.ofSpec ⟨[['0']], []⟩).w : ℤ) ≤ -1 ∨ (0 : ℤ) < 0 ∨
      ((World.ofSpec ⟨[['0']], []⟩).h : ℤ) ≤ 0) ∧
    ((World.ofSpec ⟨[['0']], []⟩).cell_at (-1) 0 = '1' ∧
      (World.ofSpec ⟨[['0']], []⟩).is_wall_cell (-1) 0 = true ∧
      (World.ofSpec ⟨[['0']], []⟩).is_blocking_cell (-1) 0 = true) :=
  ⟨by norm_num, cell_at_out_of_range (World.ofSpec ⟨[['0']], []⟩) (-1) 0 (by norm_num)⟩

lemma DIRS4_neg {d : Cell} (hd : d ∈ DIRS4) : ((-d.1, -d.2) : Cell) ∈ DIRS4 := by
  fin_cases hd <;> decide

lemma nbr_neg (c d : Cell) : nbr (nbr c d) (-d.1, -d.2) = c := by
  simp only [nbr, Prod.ext_iff]
  omega

lemma PathTo.endpoint {B : Cell → Bool} {w h : ℕ} {s c : Cell} {n : ℕ}
    (hp : PathTo B w h s c n) : c = s ∨ (inBounds w h c ∧ B c = false) := by
  cases hp with
  | refl => exact Or.inl rfl
  | step _ _ hib hBf => exact Or.inr ⟨hib, hBf⟩

lemma PathTo.trans {B : Cell → Bool} {w h : ℕ} {a b c : Cell} {n m : ℕ}
    (h1 : PathTo B w h a b n) (h2 : PathTo B w h b c m) : PathTo B w h a c (n + m) := by
  induction h2 with
  | refl => exact h1
  | step _ hdir hib hBf ih => exact PathTo.step ih hdir hib hBf

lemma PathTo.symm {B : Cell → Bool} {w h : ℕ} {s : Cell}
    (hsin : inBounds w h s) (hsopen : B s = false) :
    ∀ {c : Cell} {n : ℕ}, PathTo B w h s c n → PathTo B w h c s n := by
  intro c n hp
  induction hp with
  | refl => exact PathTo.refl
  | @step c' n' dir hp' hdir hib hBf ih =>
    have hc'props : inBounds w h c' ∧ B c' = false := by
      rcases hp'.endpoint with rfl | hpr
      · exact ⟨hsin, hsopen⟩
      · exact hpr
    have hstep1 : PathTo B w h (nbr c' dir) c' 1 := by
      have := PathTo.step (@PathTo.refl B w h (nbr c' dir))
        (DIRS4_neg hdir) (by rw [nbr_neg]; exact hc'props.1) (by rw [nbr_neg]; exact hc'props.2)
      rwa [nbr_neg] at this
    have := hstep1.trans ih
    rwa [Nat.add_comm] at this

/-- Walks survive a change of blocking predicate that keeps every reachable
open cell open. -/
lemma PathTo.transfer {B1 B2 : Cell → Bool} {w h : ℕ} {s : Cell}
    (hB : ∀ c, (∃ m, PathTo B1 w h s c m) → B1 c = false → B2 c = false) :
    ∀ {c : Cell} {n : ℕ}, PathTo B1 w h s c n → PathTo B2 w h s c n := by
  intro c n hp
  induction hp with
  | refl => exact PathTo.refl
  | @step c' n' dir hp' hdir hib hBf ih =>
    exact PathTo.step ih hdir hib
      (hB _ ⟨n' + 1, PathTo.step hp' hdir hib hBf⟩ hBf)

lemma floodNbr_cases (w h : ℕ) (g : Cell → Char) (c : Cell)
    (acc : (Cell → Bool) × List Cell) (dir : Cell) :
    floodNbr w h g c acc dir = acc ∨
      (inBounds w h (nbr c dir) ∧ g (nbr c dir) = '0' ∧ acc.1 (nbr c dir) = false ∧
        floodNbr w h g c acc dir = (updB acc.1 (nbr c dir) true, acc.2 ++ [nbr c dir])) := by
  simp only [floodNbr]
  split
  · next hc => exact Or.inr ⟨hc.1, hc.2.1, hc.2.2, rfl⟩
  · exact Or.inl rfl

lemma flood_fold_stable (w h : ℕ) (g : Cell → Char) (c : Cell) :
    ∀ (dirs : List Cell) (acc : (Cell → Bool) × List Cell) (x : Cell), acc.1 x = true →
      (dirs.foldl (floodNbr w h g c) acc).1 x = true := by
  intro dirs
  induction dirs with
  | nil => intro acc x hx; exact hx
  | cons dir dirs ih =>
    intro acc x hx
    rw [List.foldl_cons]
    rcases floodNbr_cases w h g c acc dir with hcase | ⟨hib, hopen, hunseen, hcase⟩
    · rw [hcase]; exact ih acc x hx
    · rw [hcase]
      apply ih
      simp only [updB]
      split
      · rfl
      · exact hx

lemma flood_fold_spec (w h : ℕ) (g : Cell → Char) (c : Cell) (dirs : List Cell) :
    ∀ (seen : Cell → Bool) (q : List Cell),
      ∃ ps : List Cell,
        (dirs.foldl (floodNbr w h g c) (seen, q)).2 = q ++ ps ∧
        ps.Nodup ∧
        (∀ x ∈ ps, seen x = false ∧ inBounds w h x ∧ g x = '0' ∧ ∃ dir ∈ dirs, x = nbr c dir) ∧
        (∀ x, x ∉ ps → (dirs.foldl (floodNbr w h g c) (seen, q)).1 x = seen x) ∧
        (∀ x ∈ ps, (dirs.foldl (floodNbr w h g c) (seen, q)).1 x = true) ∧
        (∀ dir ∈ dirs, inBounds w h (nbr c dir) → g (nbr c dir) = '0' →
          (dirs.foldl (floodNbr w h g c) (seen, q)).1 (nbr c dir) = true) := by
  induction dirs with
  | nil =>
    intro seen q
    exact ⟨[], by simp, by simp, by simp, by simp, by simp, by simp⟩
  | cons dir dirs ih =>
    intro seen q
    rcases floodNbr_cases w h g c (seen, q) dir with hcase | ⟨hib, hopen, hunseen, hcase⟩
    · obtain ⟨ps, h1, h2, h3, h4, h5, h6⟩ := ih seen q
      refine ⟨ps, ?_, h2, ?_, ?_, ?_, ?_⟩
      · rw [List.foldl_cons, hcase]; exact h1
      · intro x hx
        obtain ⟨ha, hb, hc2, dir', hd', he⟩ := h3 x hx
        exact ⟨ha, hb, hc2, dir', List.mem_cons_of_mem _ hd', he⟩
      · intro x hx; rw [List.foldl_cons, hcase]; exact h4 x hx
      · intro x hx; rw [List.foldl_cons, hcase]; exact h5 x hx
      · intro dir' hdir' hib' hopen'
        rw [List.foldl_cons, hcase]
        rcases List.mem_cons.mp hdir' with heq | hmem
        · subst heq
          have hseen : seen (nbr c dir') = true := by
            by_contra hf
            have : floodNbr w h g c (seen, q) dir'
                = (updB seen (nbr c dir') true, q ++ [nbr c dir']) := by
              simp only [floodNbr]
              rw [if_pos ⟨hib', hopen', by simpa using hf⟩]
            rw [this] at hcase
            have := congrArg Prod.snd hcase
            simp at this
          exact flood_fold_stable w h g c dirs (seen, q) _ hseen
        · exact h6 dir' hmem hib' hopen'
    · rw [List.foldl_cons, hcase]
      obtain ⟨ps, h1, h2, h3, h4, h5, h6⟩ := ih (updB seen (nbr c dir) true) (q ++ [nbr c dir])
      have hn_notin : nbr c dir ∉ ps := by
        intro hmem
        have := (h3 _ hmem).1
        simp [updB] at this
      refine ⟨nbr c dir :: ps, ?_, ?_, ?_, ?_, ?_, ?_⟩
      · rw [h1, List.append_assoc, List.singleton_append]
      · exact List.nodup_cons.mpr ⟨hn_notin, h2⟩
      · intro x hx
        rcases List.mem_cons.mp hx with heq | hmem
        · subst heq
          exact ⟨hunseen, hib, hopen, dir, List.mem_cons_self _ _, rfl⟩
        · obtain ⟨ha, hb, hc2, dir', hd', he⟩ := h3 x hmem
          have hxne : x ≠ nbr c dir := by
            intro hxeq
            rw [hxeq] at ha
            simp [updB] at ha
          refine ⟨?_, hb, hc2, dir', List.mem_cons_of_mem _ hd', he⟩
          simpa only [updB, if_neg hxne] using ha
      · intro x hx
        have hx1 : x ∉ ps := fun hm => hx (List.mem_cons_of_mem _ hm)
        have hx2 : x ≠ nbr c dir := fun hm => hx (hm ▸ List.mem_cons_self _ _)
        rw [h4 x hx1]
        simp only [updB, if_neg hx2]
      · intro x hx
        rcases List.mem_cons.mp hx with heq | hmem
        · subst heq
          rw [h4 _ hn_notin]
          simp [updB]
        · exact h5 x hmem
      · intro dir' hdir' hib' hopen'
        rcases List.mem_cons.mp hdir' with heq | hmem
        · subst heq
          rw [h4 _ hn_notin]
          simp [updB]
        · exact h6 dir' hmem hib' hopen'

lemma flood_fold_card (w h : ℕ) (seen seen' : Cell → Bool) (ps : List Cell)
    (hnd : ps.Nodup)
    (hps : ∀ x ∈ ps, seen x = false ∧ inBounds w h x)
    (hstab : ∀ x, x ∉ ps → seen' x = seen x)
    (hval : ∀ x ∈ ps, seen' x = true) :
    unseenCard w h seen' + ps.length = unseenCard w h seen := by
  have hchar : ∀ x, seen' x = false ↔ (seen x = false ∧ x ∉ ps) := by
    intro x
    constructor
    · intro hx
      by_cases hxps : x ∈ ps
      · rw [hval x hxps] at hx; exact absurd hx (by simp)
      · exact ⟨by rw [← hstab x hxps]; exact hx, hxps⟩
    · intro ⟨hx, hxps⟩
      rw [hstab x hxps]; exact hx
  have hsub : ps.toFinset ⊆ (bounded w h).filter (fun c => seen c = false) := by
    intro x hx
    rw [List.mem_toFinset] at hx
    rw [Finset.mem_filter, mem_bounded]
    exact ⟨(hps x hx).2, (hps x hx).1⟩
  have hset : (bounded w h).filter (fun c => seen' c = false)
      = ((bounded w h).filter (fun c => seen c = false)) \ ps.toFinset := by
    ext x
    rw [Finset.mem_sdiff, Finset.mem_filter, Finset.mem_filter, List.mem_toFinset, hchar x]
    tauto
  have hle : ps.length ≤ unseenCard w h seen := by
    calc ps.length = ps.toFinset.card := (List.toFinset_card_of_nodup hnd).symm
    _ ≤ _ := Finset.card_le_card hsub
  have hcard : unseenCard w h seen' = unseenCard w h seen - ps.length := by
    rw [unseenCard, hset, Finset.card_sdiff hsub, List.toFinset_card_of_nodup hnd]
    rfl
  omega

lemma floodAux_post {w h : ℕ} {g : Cell → Char} {start : Cell} :
    ∀ (fuel : ℕ) (seen : Cell → Bool) (q : List Cell),
      FloodInv w h g start seen q →
      2 * unseenCard w h seen + q.length ≤ fuel →
      FloodPost w h g start (floodAux w h g fuel q seen) := by
  intro fuel
  induction fuel with
  | zero =>
    intro seen q hinv hm
    have hq : q = [] := by
      cases q with
      | nil => rfl
      | cons a l => simp at hm
    subst hq
    exact ⟨hinv.start_seen, hinv.seen_reach, fun b hb => hinv.closed b hb (by simp)⟩
  | succ fuel ih =>
    intro seen q hinv hm
    cases q with
    | nil =>
      exact ⟨hinv.start_seen, hinv.seen_reach, fun b hb => hinv.closed b hb (by simp)⟩
    | cons c rest =>
      have hcseen : seen c = true := hinv.q_seen c (List.mem_cons_self _ _)
      obtain ⟨hcrest, hrestnd⟩ := List.nodup_cons.mp hinv.q_nodup
      obtain ⟨ps, h1, h2, h3, h4, h5, h6⟩ := flood_fold_spec w h g c DIRS4 seen rest
      set seen' := (DIRS4.foldl (floodNbr w h g c) (seen, rest)).1 with hseen'
      have hstab : ∀ x, seen x = true → seen' x = true := by
        intro x hx
        apply flood_fold_stable
        exact hx
      have hchar : ∀ x, seen' x = true → seen x = true ∨ x ∈ ps := by
        intro x hx
        by_cases hxps : x ∈ ps
        · exact Or.inr hxps
        · exact Or.inl (by rw [← h4 x hxps]; exact hx)
      have hred : floodAux w h g (fuel + 1) (c :: rest) seen
          = floodAux w h g fuel (DIRS4.foldl (floodNbr w h g c) (seen, rest)).2 seen' := rfl
      rw [hred, h1]
      have hcard := flood_fold_card w h seen seen' ps h2
        (fun x hx => ⟨(h3 x hx).1, (h3 x hx).2.1⟩) h4 h5
      have hinv' : FloodInv w h g start seen' (rest ++ ps) := by
        refine ⟨hstab start hinv.start_seen, ?_, ?_, ?_, ?_⟩
        · intro x hx
          rcases List.mem_append.mp hx with hx | hx
          · exact hstab x (hinv.q_seen x (List.mem_cons_of_mem _ hx))
          · exact h5 x hx
        · refine List.Nodup.append hrestnd h2 ?_
          intro x hx1 hx2
          have := hinv.q_seen x (List.mem_cons_of_mem _ hx1)
          rw [(h3 x hx2).1] at this
          exact absurd this (by simp)
        · intro x hx
          rcases hchar x hx with hx | hx
          · exact hinv.seen_reach x hx
          · obtain ⟨-, hib, hopen, dir, hdir, hxeq⟩ := h3 x hx
            obtain ⟨n, hn⟩ := hinv.seen_reach c hcseen
            refine ⟨n + 1, ?_⟩
            rw [hxeq]
            refine PathTo.step hn hdir (hxeq ▸ hib) ?_
            simp only [mazeBlocking, decide_eq_false_iff_not, ne_eq, not_not]
            rw [← hxeq]
            exact hopen
        · intro b hb hbq dir hdir hib hopen
          have hbps : b ∉ ps := fun hm => hbq (List.mem_append.mpr (Or.inr hm))
          have hbrest : b ∉ rest := fun hm => hbq (List.mem_append.mpr (Or.inl hm))
          by_cases hbc : b = c
          · subst hbc
            exact h6 dir hdir hib hopen
          · have hbseen : seen b = true := by
              rcases hchar b hb with hx | hx
              · exact hx
              · exact absurd hx hbps
            have hbq' : b ∉ c :: rest := by
              intro hmem
              rcases List.mem_cons.mp hmem with heq | hmem
              · exact hbc heq
              · exact hbrest hmem
            exact hstab _ (hinv.closed b hbseen hbq' dir hdir hib hopen)
      have hmeas : 2 * unseenCard w h seen' + (rest ++ ps).length ≤ fuel := by
        rw [List.length_append]
        simp only [List.length_cons] at hm
        omega
      exact ih seen' (rest ++ ps) hinv' hmeas

lemma floodFill_post (w h : ℕ) (g : Cell → Char) (start : Cell) :
    FloodPost w h g start (floodFill w h g start) := by
  have hzero : updB (fun _ => false) start true start = true := by simp [updB]
  have hother : ∀ x, x ≠ start → updB (fun _ => false) start true x = false := by
    intro x hx; simp [updB, hx]
  apply floodAux_post
  · refine ⟨hzero, ?_, by simp, ?_, ?_⟩
    · intro c hc
      rcases List.mem_singleton.mp hc with rfl
      exact hzero
    · intro c hc
      by_cases hcs : c = start
      · subst hcs; exact ⟨0, PathTo.refl⟩
      · rw [hother c hcs] at hc; exact absurd hc (by simp)
    · intro b hb hbq
      by_cases hbs : b = start
      · exact absurd (List.mem_singleton.mpr hbs) hbq
      · rw [hother b hbs] at hb; exact absurd hb (by simp)
  · have hle : unseenCard w h (updB (fun _ => false) start true) ≤ w * h := by
      calc unseenCard w h _ ≤ (bounded w h).card := Finset.card_filter_le _ _
      _ = w * h := card_bounded w h
    simp only [List.length_singleton]
    have h2 : 2 * w * h = 2 * (w * h) := by ring
    omega

/-- The flood-fill seen-set is exactly the set of cells reachable from the
start through in-bounds open cells. -/
lemma floodFill_iff (w h : ℕ) (g : Cell → Char) (start : Cell) (c : Cell) :
    floodFill w h g start c = true ↔
      ∃ n, PathTo (mazeBlocking g) w h start c n := by
  have hp := floodFill_post w h g start
  constructor
  · exact hp.seen_reach c
  · intro ⟨n, hn⟩
    induction hn with
    | refl => exact hp.start_seen
    | @step c' n' dir hp' hdir hib hBf ih =>
      have hopen : g (nbr c' dir) = '0' := by
        have := hBf
        simp [mazeBlocking] at this
        exact this
      exact hp.closed c' ih dir hdir hib hopen

lemma updC_open (g : Cell → Char) (x c : Cell) :
    updC g x '0' c = g c ∨ updC g x '0' c = '0' := by
  simp only [updC]
  split
  · exact Or.inr rfl
  · exact Or.inl rfl

/-- The backtracker only ever opens cells. -/
lemma carveLoop_pointwise (choice : ℕ → ℕ) (w h : ℕ) :
    ∀ (fuel i : ℕ) (st : List Cell) (g : Cell → Char) (c : Cell),
      carveLoop choice w h fuel i st g c = g c ∨
        carveLoop choice w h fuel i st g c = '0' := by
  intro fuel
  induction fuel with
  | zero => intro i st g c; exact Or.inl rfl
  | succ fuel ih =>
    intro i st g c
    cases st with
    | nil => exact Or.inl rfl
    | cons c0 st =>
      by_cases hne : (carveNeigh w h g c0).isEmpty
      · have hred : carveLoop choice w h (fuel + 1) i (c0 :: st) g
            = carveLoop choice w h fuel (i + 1) st g := by
          simp only [carveLoop]
          rw [if_pos hne]
        rw [hred]
        exact ih (i + 1) st g c
      · set pickn := (carveNeigh w h g c0).getD
          (choice i % (carveNeigh w h g c0).length) ((0, 0), (0, 0)) with hpickn
        have hred : carveLoop choice w h (fuel + 1) i (c0 :: st) g
            = carveLoop choice w h fuel (i + 1) (pickn.1 :: c0 :: st)
                (updC (updC g (nbr c0 (pickn.2.1 / 2, pickn.2.2 / 2)) '0') pickn.1 '0') := by
          simp only [carveLoop]
          rw [if_neg hne]
        rw [hred]
        rcases ih (i + 1) (pickn.1 :: c0 :: st)
          (updC (updC g (nbr c0 (pickn.2.1 / 2, pickn.2.2 / 2)) '0') pickn.1 '0') c with
          heq | heq
        · rw [heq]
          rcases updC_open (updC g (nbr c0 (pickn.2.1 / 2, pickn.2.2 / 2)) '0') pickn.1 c with
            heq2 | heq2
          · rw [heq2]
            exact updC_open g _ c
          · exact Or.inr heq2
        · exact Or.inr heq

lemma foldl_pointwise_open {α : Type} (f : (Cell → Char) → α → (Cell → Char))
    (hf : ∀ g a c, f g a c = g c ∨ f g a c = '0') (l : List α) :
    ∀ (g : Cell → Char) (c : Cell), (l.foldl f g) c = g c ∨ (l.foldl f g) c = '0' := by
  induction l with
  | nil => intro g c; exact Or.inl rfl
  | cons a l ih =>
    intro g c
    rw [List.foldl_cons]
    rcases ih (f g a) c with heq | heq
    · rw [heq]; exact hf g a c
    · exact Or.inr heq

lemma carveRooms_pointwise (o : MazeOracle) (w h : ℕ) (g : Cell → Char) (c : Cell) :
    carveRooms o w h g c = g c ∨ carveRooms o w h g c = '0' := by
  apply foldl_pointwise_open
  intro g a c
  dsimp only
  split
  · exact Or.inr rfl
  · exact Or.inl rfl

lemma loopPass_pointwise (o : MazeOracle) (w h : ℕ) (g : Cell → Char) (c : Cell) :
    loopPass o w h g c = g c ∨ loopPass o w h g c = '0' := by
  apply foldl_pointwise_open
  intro g a c
  dsimp only
  split_ifs
  · exact Or.inl rfl
  · exact Or.inl rfl
  · exact updC_open g a c
  · exact updC_open g a c
  · exact Or.inl rfl

lemma borderize_not_border (w h : ℕ) (g : Cell → Char) (c : Cell)
    (hc : ¬ (c.1 = 0 ∨ c.1 = (w : ℤ) - 1 ∨ c.2 = 0 ∨ c.2 = (h : ℤ) - 1)) :
    borderize w h g c = g c := by
  simp only [borderize]
  rw [if_neg hc]

lemma borderize_border (w h : ℕ) (g : Cell → Char) (c : Cell)
    (hc : c.1 = 0 ∨ c.1 = (w : ℤ) - 1 ∨ c.2 = 0 ∨ c.2 = (h : ℤ) - 1) :
    borderize w h g c = '1' := by
  simp only [borderize]
  rw [if_pos hc]

lemma pyOdd_ge (n : ℕ) : n ≤ pyOdd n := by
  simp only [pyOdd]
  split <;> omega

/-- Before the repair the cell (1,1) carved at lines 139-140 is still open
(every later phase only opens cells, and (1,1) is not on the border). -/
lemma mazePreRepair_start_open (o : MazeOracle) (w h : ℕ) (hw : 3 ≤ w) (hh : 3 ≤ h) :
    mazePreRepair o w h (1, 1) = '0' := by
  have hnb : ¬ (((1 : ℤ), (1 : ℤ)).1 = 0 ∨ ((1 : ℤ), (1 : ℤ)).1 = (w : ℤ) - 1 ∨
      ((1 : ℤ), (1 : ℤ)).2 = 0 ∨ ((1 : ℤ), (1 : ℤ)).2 = (h : ℤ) - 1) := by
    simp only []
    push_neg
    refine ⟨by omega, by omega, by omega, by omega⟩
  rw [mazePreRepair, borderize_not_border _ _ _ _ hnb]
  have h0 : updC (fun _ => '1') (1, 1) '0' (1, 1) = '0' := by simp [updC]
  rcases carveLoop_pointwise o.carveChoice w h (2 * w * h + 1) 0 [(1, 1)]
    (updC (fun _ => '1') (1, 1) '0') (1, 1) with h1 | h1 <;>
    rcases carveRooms_pointwise o w h
      (carveLoop o.carveChoice w h (2 * w * h + 1) 0 [(1, 1)]
        (updC (fun _ => '1') (1, 1) '0')) (1, 1) with h2 | h2 <;>
      rcases loopPass_pointwise o w h
        (carveRooms o w h (carveLoop o.carveChoice w h (2 * w * h + 1) 0 [(1, 1)]
          (updC (fun _ => '1') (1, 1) '0'))) (1, 1) with h3 | h3 <;>
    simp_all

/-- The border is all wall after the borderize phase. -/
lemma mazePreRepair_border (o : MazeOracle) (w h : ℕ) (c : Cell)
    (hc : c.1 = 0 ∨ c.1 = (w : ℤ) - 1 ∨ c.2 = 0 ∨ c.2 = (h : ℤ) - 1) :
    mazePreRepair o w h c = '1' := by
  rw [mazePreRepair]
  exact borderize_border w h _ c hc

lemma mem_interiorCells {w h : ℕ} {c : Cell} :
    c ∈ interiorCells w h ↔
      1 ≤ c.1 ∧ c.1 < (w : ℤ) - 1 ∧ 1 ≤ c.2 ∧ c.2 < (h : ℤ) - 1 := by
  simp only [interiorCells, List.mem_flatMap, List.mem_map, List.mem_range]
  constructor
  · rintro ⟨y, ⟨ky, hky, rfl⟩, ⟨x, ⟨kx, hkx, rfl⟩, rfl⟩⟩
    simp only []
    push_cast
    omega
  · rintro ⟨h1, h2, h3, h4⟩
    refine ⟨c.2.toNat, ⟨c.2.toNat - 1, by omega, by omega⟩,
            ⟨c.1.toNat, ⟨c.1.toNat - 1, by omega, by omega⟩, ?_⟩⟩
    rw [Prod.ext_iff]
    constructor <;> simp only [] <;> omega

/-- Connectivity repair, in isolation: on any grid whose border is all wall
and which has an open interior cell, the repaired grid has a nonempty open
set and any two open cells are joined by a 4-connected open walk. -/
theorem repairGrid_connects (w h : ℕ) (g : Cell → Char)
    (hborder : ∀ c, (c.1 = 0 ∨ c.1 = (w : ℤ) - 1 ∨ c.2 = 0 ∨ c.2 = (h : ℤ) - 1) → g c = '1')
    (st : Cell) (hfind : findStart w h g = some st) :
    (inBounds w h st ∧ repairGrid w h g st = '0') ∧
    ∀ a b, inBounds w h a → repairGrid w h g a = '0' →
      inBounds w h b → repairGrid w h g b = '0' →
      ∃ n, PathTo (mazeBlocking (repairGrid w h g)) w h a b n := by
  have hst_mem : st ∈ interiorCells w h := List.mem_of_find?_eq_some hfind
  have hst_open : g st = '0' := by
    have := List.find?_some hfind
    simpa using this
  have hst_int := mem_interiorCells.mp hst_mem
  have hst_in : inBounds w h st := by
    rw [inBounds]; omega
  have hrepair : repairGrid w h g = fun c =>
      if (1 ≤ c.1 ∧ c.1 < (w : ℤ) - 1 ∧ 1 ≤ c.2 ∧ c.2 < (h : ℤ) - 1) ∧
          g c = '0' ∧ floodFill w h g st c = false then '1'
      else g c := by
    rw [repairGrid, hfind]
  -- seen cells stay as they were, and are open
  have hseen_open : ∀ c, floodFill w h g st c = true → g c = '0' := by
    intro c hc
    obtain ⟨n, hn⟩ := (floodFill_iff w h g st c).mp hc
    rcases hn.endpoint with rfl | ⟨-, hBf⟩
    · exact hst_open
    · simpa [mazeBlocking] using hBf
  have hseen_keep : ∀ c, floodFill w h g st c = true → repairGrid w h g c = '0' := by
    intro c hc
    rw [hrepair]
    simp only []
    rw [if_neg]
    · exact hseen_open c hc
    · rintro ⟨-, -, hf⟩
      rw [hc] at hf
      exact absurd hf (by simp)
  -- open cells of the repaired grid are exactly the seen cells (in bounds)
  have hopen_seen : ∀ c, inBounds w h c → repairGrid w h g c = '0' →
      floodFill w h g st c = true := by
    intro c hcin hcop
    rw [hrepair] at hcop
    simp only [] at hcop
    by_cases hcond : (1 ≤ c.1 ∧ c.1 < (w : ℤ) - 1 ∧ 1 ≤ c.2 ∧ c.2 < (h : ℤ) - 1) ∧
        g c = '0' ∧ floodFill w h g st c = false
    · rw [if_pos hcond] at hcop
      exact absurd hcop (by decide)
    · rw [if_neg hcond] at hcop
      -- c is open in g; in bounds and not on the border it must be interior
      have hnotb : ¬ (c.1 = 0 ∨ c.1 = (w : ℤ) - 1 ∨ c.2 = 0 ∨ c.2 = (h : ℤ) - 1) := by
        intro hb
        rw [hborder c hb] at hcop
        exact absurd hcop (by decide)
      have hint : 1 ≤ c.1 ∧ c.1 < (w : ℤ) - 1 ∧ 1 ≤ c.2 ∧ c.2 < (h : ℤ) - 1 := by
        rw [inBounds] at hcin
        push_neg at hnotb
        omega
      by_contra hf
      exact hcond ⟨hint, hcop, by simpa using hf⟩
  -- walks in g between seen cells survive the repair
  have htransfer : ∀ c n, PathTo (mazeBlocking g) w h st c n →
      PathTo (mazeBlocking (repairGrid w h g)) w h st c n := by
    intro c n hn
    refine PathTo.transfer ?_ hn
    intro x hx hBx
    have hxseen : floodFill w h g st x = true := (floodFill_iff w h g st x).mpr hx
    have := hseen_keep x hxseen
    simp [mazeBlocking, this]
  have hst_seen : floodFill w h g st st = true := (floodFill_post w h g st).start_seen
  have hst_open' : repairGrid w h g st = '0' := hseen_keep st hst_seen
  refine ⟨⟨hst_in, hst_open'⟩, ?_⟩
  intro a b hain haop hbin hbop
  obtain ⟨na, hna⟩ := (floodFill_iff w h g st a).mp (hopen_seen a hain haop)
  obtain ⟨nb, hnb⟩ := (floodFill_iff w h g st b).mp (hopen_seen b hbin hbop)
  have hna' := htransfer a na hna
  have hnb' := htransfer b nb hnb
  have hback : PathTo (mazeBlocking (repairGrid w h g)) w h a st na :=
    PathTo.symm hst_in (by simp [mazeBlocking, hst_open']) hna'
  exact ⟨na + nb, hback.trans hnb'⟩

/-- C3: for every requested size and every RNG behaviour (quantified via
the oracle), the grid returned by `generate_maze_grid` has exactly one
4-connected component of open cells: some open cell exists, and every two
open cells are joined by a walk through open cells. -/
theorem generate_maze_grid_connected (o : MazeOracle) (w0 h0 : ℕ) :
    (∃ a, inBounds (generate_maze_grid o w0 h0).w (generate_maze_grid o w0 h0).h a ∧
      (generate_maze_grid o w0 h0).g a = '0') ∧
    ∀ a b, inBounds (generate_maze_grid o w0 h0).w (generate_maze_grid o w0 h0).h a →
      (generate_maze_grid o w0 h0).g a = '0' →
      inBounds (generate_maze_grid o w0 h0).w (generate_maze_grid o w0 h0).h b →
      (generate_maze_grid o w0 h0).g b = '0' →
      ∃ n, PathTo (mazeBlocking (generate_maze_grid o w0 h0).g)
        (generate_maze_grid o w0 h0).w (generate_maze_grid o w0 h0).h a b n := by
  have hw3 : 3 ≤ pyOdd (max w0 25) :=
    le_trans (by norm_num) (le_trans (le_max_right w0 25) (pyOdd_ge _))
  have hh3 : 3 ≤ pyOdd (max h0 25) :=
    le_trans (by norm_num) (le_trans (le_max_right h0 25) (pyOdd_ge _))
  have hopen11 : mazePreRepair o (pyOdd (max w0 25)) (pyOdd (max h0 25)) (1, 1) = '0' :=
    mazePreRepair_start_open o _ _ hw3 hh3
  have hmem11 : ((1 : ℤ), (1 : ℤ)) ∈ interiorCells (pyOdd (max w0 25)) (pyOdd (max h0 25)) := by
    rw [mem_interiorCells]
    refine ⟨by norm_num, ?_, by norm_num, ?_⟩ <;> simp only [] <;> omega
  have hsome : (findStart (pyOdd (max w0 25)) (pyOdd (max h0 25))
      (mazePreRepair o (pyOdd (max w0 25)) (pyOdd (max h0 25)))).isSome := by
    rw [findStart, List.find?_isSome]
    exact ⟨(1, 1), hmem11, by simp only [beq_iff_eq]; exact hopen11⟩
  obtain ⟨st, hfind⟩ := Option.isSome_iff_exists.mp hsome
  have hborder : ∀ c, (c.1 = 0 ∨ c.1 = ((pyOdd (max w0 25) : ℕ) : ℤ) - 1 ∨ c.2 = 0 ∨
      c.2 = ((pyOdd (max h0 25) : ℕ) : ℤ) - 1) →
      mazePreRepair o (pyOdd (max w0 25)) (pyOdd (max h0 25)) c = '1' :=
    fun c hc => mazePreRepair_border o _ _ c hc
  have hmain := repairGrid_connects (pyOdd (max w0 25)) (pyOdd (max h0 25))
    (mazePreRepair o (pyOdd (max w0 25)) (pyOdd (max h0 25))) hborder st hfind
  exact ⟨⟨st, hmain.1.1, hmain.1.2⟩, hmain.2⟩

theorem generate_maze_grid_connected_witness :
    ∃ a, inBounds
        (generate_maze_grid ⟨fun _ => 0, fun _ => 0, fun _ => 0, fun _ => 0,
          fun _ => 0, fun _ => false⟩ 0 0).w
        (generate_maze_grid ⟨fun _ => 0, fun _ => 0, fun _ => 0, fun _ => 0,
          fun _ => 0, fun _ => false⟩ 0 0).h a ∧
      (generate_maze_grid ⟨fun _ => 0, fun _ => 0, fun _ => 0, fun _ => 0,
        fun _ => 0, fun _ => false⟩ 0 0).g a = '0' ∧
      ∃ n, PathTo
        (mazeBlocking (generate_maze_grid ⟨fun _ => 0, fun _ => 0, fun _ => 0, fun _ => 0,
          fun _ => 0, fun _ => false⟩ 0 0).g)
        (generate_maze_grid ⟨fun _ => 0, fun _ => 0, fun _ => 0, fun _ => 0,
          fun _ => 0, fun _ => false⟩ 0 0).w
        (generate_maze_grid ⟨fun _ => 0, fun _ => 0, fun _ => 0, fun _ => 0,
          fun _ => 0, fun _ => false⟩ 0 0).h a a n := by
  obtain ⟨⟨a, ha1, ha2⟩, hconn⟩ := generate_maze_grid_connected
    ⟨fun _ => 0, fun _ => 0, fun _ => 0, fun _ => 0, fun _ => 0, fun _ => false⟩ 0 0
  exact ⟨a, ha1, ha2, hconn a a ha1 ha2 ha1 ha2⟩

lemma minActiveTime_singleton (m : Monster) : minActiveTime [m] = m.active_time := rfl

/-- The per-monster update leaves the cached tunnel distance unchanged on a
frame where the monster's replan timer has not fired (the movement,
wrapping, target-clearing and kill branches never write it). -/
lemma tunnel_dist_unchanged_without_replan (wd : World) (rows : List (List ℤ))
    (ppos : ℝ × ℝ) (t dt : ℝ) (m : Monster) (rest : List Monster) (minDist : ℤ)
    (hnr : ¬ ReplanDue m t) :
    ((processMonsters wd rows ppos t dt (m :: rest) minDist).1.headD m).tunnel_dist_cells
      = m.tunnel_dist_cells := by
  rw [ReplanDue] at hnr
  rw [processMonsters]
  by_cases hact : t < m.active_time
  · rw [if_pos hact]
    rfl
  · rw [if_neg hact]
    simp only [if_neg hnr]
    split_ifs <;> rfl

/-- C1: contrary to the spec, states.py line 537 recomputes the BFS
distance field on every frame that reaches the monster phase (the
`UpdateComputesDistMap` guard does not involve the replan timer), while a
frame on which a monster's replan timer has not fired leaves that
monster's cached tunnel distance untouched — so the per-monster replan
cadence throttles only the cache, not the BFS itself. -/
theorem dist_map_recomputed_every_frame :
    (UpdateComputesDistMap "play" [Monster.mk 2.5 3.5 0 2 (some (2.5, 3.5)) 5] 1 ∧
      ¬ ReplanDue (Monster.mk 2.5 3.5 0 2 (some (2.5, 3.5)) 5) 1) ∧
    ∀ (wd : World) (rows : List (List ℤ)) (ppos : ℝ × ℝ) (t dt : ℝ) (m : Monster)
      (rest : List Monster) (minDist : ℤ), ¬ ReplanDue m t →
      ((processMonsters wd rows ppos t dt (m :: rest) minDist).1.headD m).tunnel_dist_cells
        = m.tunnel_dist_cells := by
  refine ⟨⟨⟨rfl, ?_⟩, ?_⟩, tunnel_dist_unchanged_without_replan⟩
  · rw [minActiveTime_singleton]
    norm_num
  · rw [ReplanDue]
    norm_num

theorem dist_map_recomputed_every_frame_witness :
    (¬ ReplanDue (Monster.mk 2.5 3.5 0 2 (some (2.5, 3.5)) 5) 1) ∧
    ((processMonsters cexWorld [] (1.5, 3.5) 1 0.1
        [Monster.mk 2.5 3.5 0 2 (some (2.5, 3.5)) 5] 999).1.headD
        (Monster.mk 2.5 3.5 0 2 (some (2.5, 3.5)) 5)).tunnel_dist_cells
      = (Monster.mk 2.5 3.5 0 2 (some (2.5, 3.5)) 5).tunnel_dist_cells :=
  ⟨by rw [ReplanDue]; norm_num,
    dist_map_recomputed_every_frame.2 cexWorld [] (1.5, 3.5) 1 0.1
      (Monster.mk 2.5 3.5 0 2 (some (2.5, 3.5)) 5) [] 999
      (by rw [ReplanDue]; norm_num)⟩

/-- C5: on every frame the monster phase completes (no kill), the audio
intensity sent is `droneValue` of the minimum cached tunnel distance;
for distances below the 999 unreachable sentinel it equals
0.12 + 0.88 * clamp(1 - d/22, 0, 1) ^ 0.60, distance 0 gives the maximum
1.0, and distance at least 22 gives the floor 0.12. -/
theorem audio_intensity_formula (wd : World) (ppos : ℝ × ℝ) (t dt : ℝ) (ms : List Monster) :
    (∀ a, (monsterPhase wd ppos t dt ms).2.2 = some a →
      a = droneValue (monsterPhase wd ppos t dt ms).2.1) ∧
    (∀ d : ℤ, d < 999 →
      droneValue d = 0.12 + 0.88 * (clampR (1 - (d : ℝ) / 22) 0 1) ^ (0.60 : ℝ)) ∧
    droneValue 0 = 1 ∧
    (∀ d : ℤ, 22 ≤ d → droneValue d = 0.12) := by
  refine ⟨?_, ?_, ?_, ?_⟩
  · intro a ha
    by_cases hk : (processMonsters wd (distRows wd.w wd.h
        (worldDistMap wd (pyInt ppos.1, pyInt ppos.2))) ppos t dt ms 999).2.2 = true
    · exfalso
      have hnone : (monsterPhase wd ppos t dt ms).2.2 = none := by
        rw [monsterPhase]
        simp [hk]
      rw [hnone] at ha
      exact absurd ha (by simp)
    · have hsome : (monsterPhase wd ppos t dt ms).2.2
          = some (droneValue (monsterPhase wd ppos t dt ms).2.1) := by
        rw [monsterPhase]
        simp only [Bool.not_eq_true] at hk
        simp [hk]
      rw [hsome] at ha
      exact (Option.some.inj ha).symm
  · intro d hd
    rw [droneValue, if_neg (by omega)]
    norm_num [SOUND_AUDIBLE_CELLS, SOUND_CURVE]
  · rw [droneValue, if_neg (by omega)]
    have hclamp : clampR (1 - ((0 : ℤ) : ℝ) / (SOUND_AUDIBLE_CELLS : ℝ)) 0 1 = 1 := by
      rw [clampR]
      norm_num [SOUND_AUDIBLE_CELLS]
    rw [hclamp, Real.one_rpow]
    norm_num
  · intro d hd
    by_cases hbig : 999 ≤ d
    · rw [droneValue, if_pos hbig]
    · rw [droneValue, if_neg hbig]
      have hle : (1 : ℝ) - (d : ℝ) / (SOUND_AUDIBLE_CELLS : ℝ) ≤ 0 := by
        rw [SOUND_AUDIBLE_CELLS]
        push_cast
        have : (22 : ℝ) ≤ (d : ℝ) := by exact_mod_cast hd
        have h22 : (0 : ℝ) < 22 := by norm_num
        rw [sub_nonpos, le_div_iff h22]
        linarith
      have hclamp : clampR (1 - (d : ℝ) / (SOUND_AUDIBLE_CELLS : ℝ)) 0 1 = 0 := by
        rw [clampR, min_eq_right (le_trans hle (by norm_num)), max_eq_left hle]
      rw [hclamp, Real.zero_rpow (by rw [SOUND_CURVE]; norm_num)]
      norm_num

theorem audio_intensity_formula_witness :
    ((0 : ℤ) < 999 ∧ (22 : ℤ) ≤ 22) ∧
    droneValue 0 = 0.12 + 0.88 * (clampR (1 - ((0 : ℤ) : ℝ) / 22) 0 1) ^ (0.60 : ℝ) ∧
    droneValue 0 = 1 ∧ droneValue 22 = 0.12 :=
  ⟨⟨by norm_num, by norm_num⟩,
    (audio_intensity_formula cexWorld (0, 0) 0 0 []).2.1 0 (by norm_num),
    (audio_intensity_formula cexWorld (0, 0) 0 0 []).2.2.1,
    (audio_intensity_formula cexWorld (0, 0) 0 0 []).2.2.2 22 (by norm_num)⟩

lemma distRows_length (w h : ℕ) (f : Cell → ℤ) : (distRows w h f).length = h := by
  rw [distRows, List.length_map, List.length_range]

lemma distRows_headD (w h : ℕ) (f : Cell → ℤ) (hh : 0 < h) :
    ((distRows w h f).headD []).length = w := by
  obtain ⟨k, rfl⟩ : ∃ k, h = k + 1 := ⟨h - 1, by omega⟩
  rw [distRows, List.range_succ_eq_map, List.map_cons, List.headD_cons,
    List.length_map, List.length_range]

lemma fieldInBounds_distRows (w h : ℕ) (f : Cell → ℤ) (c : Cell) :
    fieldInBounds (distRows w h f) c ↔ inBounds w h c := by
  rcases Nat.eq_zero_or_pos h with rfl | hh
  · simp only [fieldInBounds, inBounds, distRows, List.range_zero, List.map_nil,
      List.length_nil, List.headD_nil, Nat.cast_zero]
    omega
  · unfold fieldInBounds inBounds
    rw [distRows_length, distRows_headD w h f hh]
    omega

lemma fieldAt_distRows (w h : ℕ) (f : Cell → ℤ) (c : Cell) (hc : inBounds w h c) :
    fieldAt (distRows w h f) c = f c := by
  obtain ⟨h1, h2, h3, h4⟩ := hc
  have hy : c.2.toNat < h := by omega
  have hx : c.1.toNat < w := by omega
  have houter : (distRows w h f).getD c.2.toNat []
      = (List.range w).map (fun x : ℕ => f ((x : ℤ), ((c.2.toNat : ℕ) : ℤ))) := by
    rw [distRows, List.getD_eq_getElem?_getD, List.getElem?_map, List.getElem?_range hy]
    rfl
  rw [fieldAt, houter, List.getD_eq_getElem?_getD, List.getElem?_map, List.getElem?_range hx]
  show f (((c.1.toNat : ℕ) : ℤ), ((c.2.toNat : ℕ) : ℤ)) = f c
  have he : ((((c.1.toNat : ℕ) : ℤ), ((c.2.toNat : ℕ) : ℤ)) : Cell) = c := by
    rw [Prod.ext_iff]
    exact ⟨by omega, by omega⟩
  rw [he]

lemma PathTo.inv_succ {B : Cell → Bool} {w h : ℕ} {src c : Cell} {n : ℕ}
    (hp : PathTo B w h src c (n + 1)) :
    ∃ c0 dir, dir ∈ DIRS4 ∧ c = nbr c0 dir ∧ PathTo B w h src c0 n ∧
      inBounds w h (nbr c0 dir) ∧ B (nbr c0 dir) = false := by
  cases hp with
  | step h0 hdir hib hB => exact ⟨_, _, hdir, rfl, h0, hib, hB⟩

/-- C8 amended core: with the player at the in-bounds cell `src` (so the
distance field is the one the replan reads), a replanning monster at a
reachable cell `c` strictly descends: `pick_next_cell_for_monster` selects a
neighbour whose field value is exactly one less whenever the value at `c` is
positive, and value 0 means the monster already stands on the player cell. -/
theorem replan_descends (wd : World) (src : Cell)
    (hs : inBounds wd.w wd.h src) (hwh : ((wd.w * wd.h : ℕ) : ℤ) ≤ 10 ^ 9) (c : Cell) :
    (worldDistMap wd src c ≠ -1 → 0 < worldDistMap wd src c →
      ∃ c2, pick_next_cell_for_monster (distRows wd.w wd.h (worldDistMap wd src)) c.1 c.2
          = some c2 ∧
        worldDistMap wd src c2 = worldDistMap wd src c - 1) ∧
    (worldDistMap wd src c = 0 → c = src) := by
  have hp := compute_dist_map_post (fun x => wd.is_blocking_cell x.1 x.2) wd.w wd.h src hs
  have hpow : (10 : ℤ) ^ 9 = 1000000000 := by norm_num
  have hrows_elig : ∀ x : Cell,
      eligibleNbr (distRows wd.w wd.h (worldDistMap wd src)) x ↔
        (inBounds wd.w wd.h x ∧ worldDistMap wd src x ≠ -1) := by
    intro x
    unfold eligibleNbr
    rw [fieldInBounds_distRows]
    constructor
    · rintro ⟨hin, hne, -⟩
      rw [fieldAt_distRows _ _ _ _ hin] at hne
      exact ⟨hin, hne⟩
    · rintro ⟨hin, hne⟩
      have hf := fieldAt_distRows wd.w wd.h (worldDistMap wd src) x hin
      have hlt : worldDistMap wd src x + 1 ≤ ((wd.w * wd.h : ℕ) : ℤ) := hp.vis_lt x hne
      refine ⟨hin, ?_, ?_⟩
      · rw [hf]; exact hne
      · rw [hf, hpow]
        rw [hpow] at hwh
        omega
  constructor
  · intro hne hpos
    have hge : (0 : ℤ) ≤ worldDistMap wd src c := (hp.vis_path c hne).1
    have hpath : PathTo (fun x => wd.is_blocking_cell x.1 x.2) wd.w wd.h src c
        (worldDistMap wd src c).toNat := (hp.vis_path c hne).2
    obtain ⟨k, hk⟩ : ∃ k, (worldDistMap wd src c).toNat = k + 1 :=
      ⟨(worldDistMap wd src c).toNat - 1, by omega⟩
    rw [hk] at hpath
    obtain ⟨c0, dir, hdir, hceq, hpath0, hcin2, hcB⟩ := PathTo.inv_succ hpath
    have hc0ne : worldDistMap wd src c0 ≠ -1 := (hp.reach_le hpath0).1
    have hc0le : worldDistMap wd src c0 ≤ (k : ℤ) := (hp.reach_le hpath0).2
    have hcle : worldDistMap wd src (nbr c0 dir) ≤ worldDistMap wd src c0 + 1 :=
      (hp.closed c0 hc0ne dir hdir hcin2 hcB).2
    rw [← hceq] at hcle
    have hkval : (k : ℤ) + 1 = worldDistMap wd src c := by omega
    have hc0val : worldDistMap wd src c0 = worldDistMap wd src c - 1 := by omega
    have hc0in : inBounds wd.w wd.h c0 := by
      rcases hp.vis_dom c0 hc0ne with hsrc | hin
      · rw [hsrc]; exact hs
      · exact hin
    have h4cases : c0 = (c.1 + 1, c.2) ∨ c0 = (c.1 - 1, c.2) ∨
        c0 = (c.1, c.2 + 1) ∨ c0 = (c.1, c.2 - 1) := by
      have hxy : c.1 = c0.1 + dir.1 ∧ c.2 = c0.2 + dir.2 := by
        rw [hceq]; exact ⟨rfl, rfl⟩
      fin_cases hdir <;> simp only [Prod.ext_iff] at hxy ⊢ <;> omega
    have hc0elig : eligibleNbr (distRows wd.w wd.h (worldDistMap wd src)) c0 :=
      (hrows_elig c0).mpr ⟨hc0in, hc0ne⟩
    have hchar := pick_spec (distRows wd.w wd.h (worldDistMap wd src)) c.1 c.2
    have hnotnone : pick_next_cell_for_monster
        (distRows wd.w wd.h (worldDistMap wd src)) c.1 c.2 ≠ none := by
      intro hn
      obtain ⟨he0, he1, he2, he3⟩ := hchar.1.mp hn
      rcases h4cases with hc4 | hc4 | hc4 | hc4
      · exact he0 (hc4 ▸ hc0elig)
      · exact he1 (hc4 ▸ hc0elig)
      · exact he2 (hc4 ▸ hc0elig)
      · exact he3 (hc4 ▸ hc0elig)
    obtain ⟨c2, hc2⟩ := Option.ne_none_iff_exists'.mp hnotnone
    obtain ⟨hc2elig, hc2nbr, hle0, hle1, hle2, hle3, -, -, -⟩ := hchar.2 c2 hc2
    obtain ⟨hc2in, hc2ne⟩ := (hrows_elig c2).mp hc2elig
    refine ⟨c2, hc2, ?_⟩
    have hfc2 : fieldAt (distRows wd.w wd.h (worldDistMap wd src)) c2
        = worldDistMap wd src c2 := fieldAt_distRows _ _ _ _ hc2in
    have hfc0 : fieldAt (distRows wd.w wd.h (worldDistMap wd src)) c0
        = worldDistMap wd src c0 := fieldAt_distRows _ _ _ _ hc0in
    have hupper : worldDistMap wd src c2 ≤ worldDistMap wd src c0 := by
      rcases h4cases with hc4 | hc4 | hc4 | hc4
      · have := hle0 (hc4 ▸ hc0elig); rw [hfc2, ← hc4, hfc0] at this; exact this
      · have := hle1 (hc4 ▸ hc0elig); rw [hfc2, ← hc4, hfc0] at this; exact this
      · have := hle2 (hc4 ▸ hc0elig); rw [hfc2, ← hc4, hfc0] at this; exact this
      · have := hle3 (hc4 ▸ hc0elig); rw [hfc2, ← hc4, hfc0] at this; exact this
    have hcinb : inBounds wd.w wd.h c := by rw [hceq]; exact hcin2
    have hcBf : (fun x => wd.is_blocking_cell x.1 x.2) c = false := by
      rw [hceq]; exact hcB
    have hlower : worldDistMap wd src c ≤ worldDistMap wd src c2 + 1 := by
      obtain ⟨d2, hd2, hnd2⟩ : ∃ d2 ∈ DIRS4, nbr c2 d2 = c := by
        rcases hc2nbr with hc4 | hc4 | hc4 | hc4
        · exact ⟨(-1, 0), by decide, by rw [hc4]; simp only [nbr, Prod.ext_iff]; omega⟩
        · exact ⟨(1, 0), by decide, by rw [hc4]; simp only [nbr, Prod.ext_iff]; omega⟩
        · exact ⟨(0, -1), by decide, by rw [hc4]; simp only [nbr, Prod.ext_iff]; omega⟩
        · exact ⟨(0, 1), by decide, by rw [hc4]; simp only [nbr, Prod.ext_iff]; omega⟩
      have hcl : worldDistMap wd src (nbr c2 d2) ≤ worldDistMap wd src c2 + 1 :=
        (hp.closed c2 hc2ne d2 hd2 (by rw [hnd2]; exact hcinb)
          (by rw [hnd2]; exact hcBf)).2
      rw [hnd2] at hcl
      exact hcl
    omega
  · intro h0
    have hne : worldDistMap wd src c ≠ -1 := by omega
    have hpz : PathTo (fun x => wd.is_blocking_cell x.1 x.2) wd.w wd.h src c
        (worldDistMap wd src c).toNat := (hp.vis_path c hne).2
    rw [h0] at hpz
    exact PathTo.eq_of_zero (by simpa using hpz)

lemma hypot_horiz (a : ℝ) : hypot a 0 = |a| := by
  rw [hypot, show a * a + 0 * 0 = a * a by ring]
  exact Real.sqrt_mul_self_eq_abs a

lemma pyInt_of_bounds (x : ℝ) (n : ℤ) (h0 : 0 ≤ x) (h1 : (n : ℝ) ≤ x)
    (h2 : x < (n : ℝ) + 1) : pyInt x = n := by
  rw [pyInt, if_pos h0]
  exact Int.floor_eq_iff.mpr ⟨h1, by push_cast; exact h2⟩

lemma applyWrap_no_portals (wd : World) (hnp : wd.wrap_portals = []) (x y : ℝ) :
    applyWrap wd x y = (x, y) := by
  rw [applyWrap, if_pos hnp]

lemma pyInt_onehalf : pyInt (1.5 : ℝ) = 1 := by
  apply pyInt_of_bounds <;> push_cast <;> norm_num

lemma pyInt_threehalf : pyInt (3.5 : ℝ) = 3 := by
  apply pyInt_of_bounds <;> push_cast <;> norm_num

/-- The first tick's straight-line movement step evaluated in closed form:
the monster heads from (4.5, 3.5) toward the player at (1.5, 3.5) and both
axis collision checks pass (the entered cell (3, 3) is open). -/
lemma cex_move : moveMonster cexWorld 1.5 3.5 0.5 4.5 3.5
    = (4.5 + (1.5 - 4.5) / (3 + 1e-9) * (MOVE_SPEED * 0.5), 3.5) := by
  have hhyp : hypot ((1.5 : ℝ) - 4.5) ((3.5 : ℝ) - 3.5) = 3 := by
    rw [show (3.5 : ℝ) - 3.5 = 0 by norm_num, hypot_horiz,
      show (1.5 : ℝ) - 4.5 = -3 by norm_num, abs_neg,
      abs_of_nonneg (by norm_num : (0 : ℝ) ≤ 3)]
  have hmy : (3.5 : ℝ) + ((3.5 : ℝ) - 3.5) / (3 + 1e-9) * (MOVE_SPEED * 0.5) = 3.5 := by
    rw [MOVE_SPEED]; norm_num
  have hpx : pyInt ((4.5 : ℝ) + ((1.5 : ℝ) - 4.5) / (3 + 1e-9) * (MOVE_SPEED * 0.5)) = 3 := by
    apply pyInt_of_bounds <;> rw [MOVE_SPEED] <;> push_cast <;> norm_num
  have hblock : cexWorld.is_blocking_cell 3 3 = false := by decide
  simp only [moveMonster]
  rw [hhyp, hmy, hpx, pyInt_threehalf, hblock]
  norm_num

/-- Mirror of tunnel_dist_unchanged_without_replan for a frame on which the
replan fires: the head's cached distance is whatever the replan wrote. -/
lemma tunnel_dist_after_replan (wd : World) (rows : List (List ℤ)) (ppos : ℝ × ℝ)
    (t dt : ℝ) (m : Monster) (rest : List Monster) (minDist : ℤ)
    (hact : ¬ t < m.active_time) (hr : m.next_replan ≤ t) :
    ((processMonsters wd rows ppos t dt (m :: rest) minDist).1.headD m).tunnel_dist_cells
      = (replanMonster rows ppos t m).tunnel_dist_cells := by
  rw [processMonsters, if_neg hact]
  simp only [if_pos hr]
  split_ifs <;> rfl

lemma replanMonster_tunnel (rows : List (List ℤ)) (ppos : ℝ × ℝ) (t : ℝ) (m : Monster) :
    (replanMonster rows ppos t m).tunnel_dist_cells =
      (if pyGet2 rows (pyInt m.y) (pyInt m.x) ≠ -1
        then pyGet2 rows (pyInt m.y) (pyInt m.x) else 999) := by
  simp only [replanMonster]

/-- One fully-evaluated pass of the per-monster loop body for an active
monster with no replan due and no target, whose move lands at `pos` without
wrapping, target-clearing, or killing. -/
lemma processMonsters_cons_eval (wd : World) (rows : List (List ℤ)) (ppos : ℝ × ℝ)
    (t dt : ℝ) (m : Monster) (rest : List Monster) (minDist : ℤ)
    (hact : ¬ t < m.active_time) (hnr : ¬ m.next_replan ≤ t) (htgt : m.target = none)
    (pos : ℝ × ℝ) (hmv : moveMonster wd ppos.1 ppos.2 dt m.x m.y = pos)
    (hwrap : applyWrap wd pos.1 pos.2 = pos)
    (hclear : ¬ hypot (pos.1 - ppos.1) (pos.2 - ppos.2) < 0.18)
    (hkill : ¬ hypot (ppos.1 - pos.1) (ppos.2 - pos.2) < KILL_DIST) :
    processMonsters wd rows ppos t dt (m :: rest) minDist
      = (({ m with x := pos.1, y := pos.2, target := some ppos } : Monster)
          :: (processMonsters wd rows ppos t dt rest (min minDist m.tunnel_dist_cells)).1,
         (processMonsters wd rows ppos t dt rest (min minDist m.tunnel_dist_cells)).2) := by
  rw [processMonsters, if_neg hact]
  simp only [if_neg hnr, if_pos htgt, Option.getD_some, hmv, hwrap, if_neg hclear,
    if_neg hkill]

/-- Tick 1 (t = 1.9, replan not due): the monster chases the fallback
target (the player's raw position) and ends as `cexM1`, inside cell (3, 3). -/
lemma cex_tick1 : (monsterPhase cexWorld (1.5, 3.5) 1.9 0.5 [cexMonster]).1 = [cexM1] := by
  have hact : ¬ ((1.9 : ℝ) < cexMonster.active_time) := by
    show ¬ ((1.9 : ℝ) < 0); norm_num
  have hnr : ¬ (cexMonster.next_replan ≤ (1.9 : ℝ)) := by
    show ¬ ((2 : ℝ) ≤ 1.9); norm_num
  have htgt : cexMonster.target = none := rfl
  have hXlb : (1.69 : ℝ) ≤ 4.5 + ((1.5 : ℝ) - 4.5) / (3 + 1e-9) * (MOVE_SPEED * 0.5) - 1.5 := by
    rw [MOVE_SPEED]; norm_num
  have hclear : ¬ (hypot ((4.5 + ((1.5 : ℝ) - 4.5) / (3 + 1e-9) * (MOVE_SPEED * 0.5)) - 1.5)
      ((3.5 : ℝ) - 3.5) < 0.18) := by
    rw [show (3.5 : ℝ) - 3.5 = 0 by norm_num, hypot_horiz, not_lt]
    calc (0.18 : ℝ) ≤ 1.69 := by norm_num
    _ ≤ 4.5 + ((1.5 : ℝ) - 4.5) / (3 + 1e-9) * (MOVE_SPEED * 0.5) - 1.5 := hXlb
    _ ≤ |4.5 + ((1.5 : ℝ) - 4.5) / (3 + 1e-9) * (MOVE_SPEED * 0.5) - 1.5| := le_abs_self _
  have hkill : ¬ (hypot ((1.5 : ℝ) - (4.5 + ((1.5 : ℝ) - 4.5) / (3 + 1e-9) * (MOVE_SPEED * 0.5)))
      ((3.5 : ℝ) - 3.5) < KILL_DIST) := by
    rw [show (3.5 : ℝ) - 3.5 = 0 by norm_num, hypot_horiz, KILL_DIST, not_lt]
    calc (0.65 : ℝ) ≤ 1.69 := by norm_num
    _ ≤ 4.5 + ((1.5 : ℝ) - 4.5) / (3 + 1e-9) * (MOVE_SPEED * 0.5) - 1.5 := hXlb
    _ = -((1.5 : ℝ) - (4.5 + ((1.5 : ℝ) - 4.5) / (3 + 1e-9) * (MOVE_SPEED * 0.5))) := by ring
    _ ≤ |(1.5 : ℝ) - (4.5 + ((1.5 : ℝ) - 4.5) / (3 + 1e-9) * (MOVE_SPEED * 0.5))| :=
      neg_le_abs _
  have hphase : (monsterPhase cexWorld (1.5, 3.5) 1.9 0.5 [cexMonster]).1
      = (processMonsters cexWorld
          (distRows cexWorld.w cexWorld.h (worldDistMap cexWorld (pyInt 1.5, pyInt 3.5)))
          (1.5, 3.5) 1.9 0.5 [cexMonster] 999).1 := rfl
  have hstep := processMonsters_cons_eval cexWorld
    (distRows cexWorld.w cexWorld.h (worldDistMap cexWorld (pyInt 1.5, pyInt 3.5)))
    (1.5, 3.5) 1.9 0.5 cexMonster [] 999 hact hnr htgt
    (4.5 + ((1.5 : ℝ) - 4.5) / (3 + 1e-9) * (MOVE_SPEED * 0.5), 3.5)
    cex_move (applyWrap_no_portals cexWorld rfl _ _) hclear hkill
  rw [hphase, hstep]
  rfl

lemma cexM1_x_cell : pyInt cexM1.x = 3 := by
  show pyInt ((4.5 : ℝ) + ((1.5 : ℝ) - 4.5) / (3 + 1e-9) * (MOVE_SPEED * 0.5)) = 3
  apply pyInt_of_bounds <;> rw [MOVE_SPEED] <;> push_cast <;> norm_num

/-- Tick 2 (t = 2, replan due): the replan reads the field at the dead-end
cell (3, 3) and caches 8. -/
lemma cex_tick2 :
    ((monsterPhase cexWorld (1.5, 3.5) 2 0.05 [cexM1]).1.headD cexM1).tunnel_dist_cells
      = 8 := by
  have hact2 : ¬ ((2 : ℝ) < cexM1.active_time) := by
    show ¬ ((2 : ℝ) < 0); norm_num
  have hr2 : cexM1.next_replan ≤ (2 : ℝ) := le_refl _
  have hphase : (monsterPhase cexWorld (1.5, 3.5) 2 0.05 [cexM1]).1
      = (processMonsters cexWorld
          (distRows cexWorld.w cexWorld.h (worldDistMap cexWorld (pyInt 1.5, pyInt 3.5)))
          (1.5, 3.5) 2 0.05 [cexM1] 999).1 := rfl
  rw [hphase, tunnel_dist_after_replan cexWorld _ (1.5, 3.5) 2 0.05 cexM1 [] 999 hact2 hr2,
    replanMonster_tunnel, cexM1_x_cell, show pyInt cexM1.y = 3 from pyInt_threehalf,
    pyInt_onehalf, pyInt_threehalf]
  decide

/-- C8 counterexample: a concrete two-tick run of the monster phase under a
stationary player in which every monster-occupied cell has a unique shortest
walk from the player's cell, yet the cached tunnel distance rises from 7 to
8 (the no-target fallback steers the monster straight at the player, into
the dead end (3, 3), and the next replan caches the larger distance). -/
theorem cached_tunnel_distance_increases :
    (pyInt cexMonster.x = 4 ∧ pyInt cexMonster.y = 3 ∧
      worldDistMap cexWorld (pyInt (1.5 : ℝ), pyInt (3.5 : ℝ)) (4, 3) = 7 ∧
      cexMonster.tunnel_dist_cells = 7) ∧
    (numPaths cexBlocking 6 5 (1, 3) 7 (4, 3) = 1 ∧
      ((List.range 7).map (fun k => numPaths cexBlocking 6 5 (1, 3) k (4, 3))).sum = 0 ∧
      numPaths cexBlocking 6 5 (1, 3) 8 (3, 3) = 1 ∧
      ((List.range 8).map (fun k => numPaths cexBlocking 6 5 (1, 3) k (3, 3))).sum = 0) ∧
    ((monsterPhase cexWorld (1.5, 3.5) 1.9 0.5 [cexMonster]).1 = [cexM1] ∧
      cexM1.tunnel_dist_cells = 7 ∧ pyInt cexM1.x = 3 ∧ pyInt cexM1.y = 3) ∧
    ((monsterPhase cexWorld (1.5, 3.5) 2 0.05 [cexM1]).1.headD cexM1).tunnel_dist_cells
      = 8 := by
  refine ⟨⟨?_, ?_, ?_, rfl⟩, ⟨by decide, by decide, by decide, by decide⟩,
    ⟨cex_tick1, rfl, cexM1_x_cell, pyInt_threehalf⟩, cex_tick2⟩
  · show pyInt (4.5 : ℝ) = 4
    apply pyInt_of_bounds <;> push_cast <;> norm_num
  · show pyInt (3.5 : ℝ) = 3
    exact pyInt_threehalf
  · rw [pyInt_onehalf, pyInt_threehalf]
    decide

theorem replan_descends_witness :
    inBounds cexWorld.w cexWorld.h ((1 : ℤ), (3 : ℤ)) ∧
    ((cexWorld.w * cexWorld.h : ℕ) : ℤ) ≤ 10 ^ 9 ∧
    worldDistMap cexWorld (1, 3) ((4 : ℤ), (3 : ℤ)) ≠ -1 ∧
    0 < worldDistMap cexWorld (1, 3) ((4 : ℤ), (3 : ℤ)) ∧
    ∃ c2, pick_next_cell_for_monster
        (distRows cexWorld.w cexWorld.h (worldDistMap cexWorld (1, 3))) 4 3 = some c2 ∧
      worldDistMap cexWorld (1, 3) c2
        = worldDistMap cexWorld (1, 3) ((4 : ℤ), (3 : ℤ)) - 1 :=
  ⟨by decide, by decide, by decide, by decide,
    (replan_descends cexWorld (1, 3) (by decide) (by decide) (4, 3)).1
      (by decide) (by decide)⟩

lemma ddaRun_steps_le (wd : World) (r : DdaRay) :
    ∀ (fuel : ℕ) (s : DdaState) (perp : ℚ) (steps : ℕ),
      ddaRun wd r fuel s = some (perp, steps) → steps ≤ fuel := by
  intro fuel
  induction fuel with
  | zero => intro s perp steps h; exact absurd h (by rw [ddaRun]; simp)
  | succ n ih =>
    intro s perp steps h
    rw [ddaRun] at h
    cases hstep : ddaStep wd r s with
    | inl p => rw [hstep] at h; simp at h; omega
    | inr s1 =>
      rw [hstep] at h
      simp only [Option.map_eq_some'] at h
      obtain ⟨q, hq, hqe⟩ := h
      have := ih s1 q.1 q.2 (by rw [hq])
      have h2 : steps = q.2 + 1 := by
        have := congrArg Prod.snd hqe
        simpa using this.symm
      omega

lemma ddaStep_hit : ddaStep ddaHitWorld ⟨0.5, 0.5, 0, -1, 1e30, 1, 1, -1⟩ ⟨0, 0, 5e29, 0.5⟩
    = Sum.inl 0.5 := by
  have c1 : ('0' : Char) = '1' ↔ False := by decide
  have c2 : ('0' : Char) = 'D' ↔ False := by decide
  norm_num [ddaStep, portalAllowsQ, ddaHitWorld, World.ofSpec, c1, c2]

lemma ddaStep_wrap (sdY : ℚ) (h : sdY < 5e29) :
    ddaStep ddaWorld1 ⟨0.5, 0.5, 0, -1, 1e30, 1, 1, -1⟩ ⟨0, 0, 5e29, sdY⟩
      = Sum.inr ⟨0, 0, 5e29, sdY + 1⟩ := by
  have he : (5e29 : ℚ) = 500000000000000000000000000000 := by norm_num
  have hns : ¬ ((500000000000000000000000000000 : ℚ) < sdY) := by
    rw [← he]; exact not_lt.mpr (le_of_lt h)
  have c1 : ('0' : Char) = '1' ↔ False := by decide
  have c2 : ('0' : Char) = 'D' ↔ False := by decide
  norm_num [ddaStep, portalAllowsQ, ddaWorld1, World.ofSpec, World.cell_at, World.w,
    World.h, c1, c2, hns]

lemma castColumn_hit_setup : castColumn ddaHitWorld 0.5 0.5 0 (-1) 0 0 0
    = ddaRun ddaHitWorld ⟨0.5, 0.5, 0, -1, 1e30, 1, 1, -1⟩ 4 ⟨0, 0, 5e29, 0.5⟩ := by
  have hf : ∀ q : ℚ, q.floor = ⌊q⌋ := fun q => rfl
  rw [castColumn]
  norm_num [pyIntQ, RENDER_W, ddaHitWorld, World.ofSpec, World.w, World.h, ratAbs, hf]

lemma ddaRun_hit : ddaRun ddaHitWorld ⟨0.5, 0.5, 0, -1, 1e30, 1, 1, -1⟩ 4 ⟨0, 0, 5e29, 0.5⟩
    = some (0.5, 1) := by
  show ddaRun ddaHitWorld ⟨0.5, 0.5, 0, -1, 1e30, 1, 1, -1⟩ (3 + 1) ⟨0, 0, 5e29, 0.5⟩
    = some (0.5, 1)
  rw [ddaRun]
  simp only [ddaStep_hit]

lemma ddaRun_wrap_none : ∀ (n : ℕ) (sdY : ℚ), sdY + (n : ℚ) ≤ 10 →
    ddaRun ddaWorld1 ⟨0.5, 0.5, 0, -1, 1e30, 1, 1, -1⟩ n ⟨0, 0, 5e29, sdY⟩ = none := by
  intro n
  induction n with
  | zero => intro sdY h; rw [ddaRun]
  | succ k ih =>
    intro sdY h
    have hk : (1 : ℚ) ≤ ((k + 1 : ℕ) : ℚ) := by exact_mod_cast Nat.succ_le_succ (Nat.zero_le k)
    have h9 : (9 : ℚ) < 5e29 := by norm_num
    have hlt : sdY < 5e29 := by linarith
    rw [ddaRun, ddaStep_wrap sdY hlt]
    show (ddaRun ddaWorld1 ⟨0.5, 0.5, 0, -1, 1e30, 1, 1, -1⟩ k
        ⟨0, 0, 5e29, sdY + 1⟩).map (fun q => (q.1, q.2 + 1)) = none
    rw [ih (sdY + 1) (by push_cast at h ⊢; linarith)]
    rfl

lemma castColumn_wrap_setup : castColumn ddaWorld1 0.5 0.5 0 (-1) 0 0 0
    = ddaRun ddaWorld1 ⟨0.5, 0.5, 0, -1, 1e30, 1, 1, -1⟩ 4 ⟨0, 0, 5e29, 0.5⟩ := by
  have hf : ∀ q : ℚ, q.floor = ⌊q⌋ := fun q => rfl
  rw [castColumn]
  norm_num [pyIntQ, RENDER_W, ddaWorld1, World.ofSpec, World.w, World.h, ratAbs, hf]

/-- C10: for every world, player pose, and screen column, the DDA loop of
Renderer._cast_walls consumes at most `world.w * world.h * 4` iterations
before any hit, and a column whose cast exhausts the budget without a hit
is skipped: its z-buffer entry keeps the initial 1e9 sentinel. -/
theorem cast_walls_bounded (wd : World) (px py dirx diry planex planey : ℚ) (x : ℕ) :
    (∀ perp steps, castColumn wd px py dirx diry planex planey x = some (perp, steps) →
      steps ≤ wd.w * wd.h * 4) ∧
    (castColumn wd px py dirx diry planex planey x = none →
      zbufferEntry wd px py dirx diry planex planey x = 1e9) := by
  constructor
  · intro perp steps h
    exact ddaRun_steps_le wd _ (wd.w * wd.h * 4) _ perp steps h
  · intro h
    simp only [zbufferEntry, h]

theorem cast_walls_bounded_witness :
    (castColumn ddaHitWorld 0.5 0.5 0 (-1) 0 0 0 = some (0.5, 1) ∧
      (1 : ℕ) ≤ ddaHitWorld.w * ddaHitWorld.h * 4) ∧
    (castColumn ddaWorld1 0.5 0.5 0 (-1) 0 0 0 = none ∧
      zbufferEntry ddaWorld1 0.5 0.5 0 (-1) 0 0 0 = 1e9) := by
  have hhit : castColumn ddaHitWorld 0.5 0.5 0 (-1) 0 0 0 = some (0.5, 1) :=
    castColumn_hit_setup.trans ddaRun_hit
  have hnone : castColumn ddaWorld1 0.5 0.5 0 (-1) 0 0 0 = none :=
    castColumn_wrap_setup.trans (ddaRun_wrap_none 4 0.5 (by push_cast; norm_num))
  exact ⟨⟨hhit, (cast_walls_bounded ddaHitWorld 0.5 0.5 0 (-1) 0 0 0).1 0.5 1 hhit⟩,
    ⟨hnone, (cast_walls_bounded ddaWorld1 0.5 0.5 0 (-1) 0 0 0).2 hnone⟩⟩

/-- C4 amended: states.py lines 626-671 applied to a record produced by
lines 593-624: under the benign side conditions that the state has at least one monster, a
nonempty collected-flags list, an in-range map index, and a world built
from the indexed variant, every serialized field round-trips — except that
each loaded monster comes back with `target = None`. -/
theorem serialize_roundtrip (mapVariants : List MapSpec) (prior s : PlayStateS)
    (hm : s.monsters ≠ []) (hzc : s.zachet_collected ≠ [])
    (hidx0 : 0 ≤ s.map_index) (hidx1 : s.map_index < (mapVariants.length : ℤ))
    (hw : s.world = World.ofSpec (mapVariants.getD s.map_index.toNat ⟨[], []⟩)) :
    (loadFromData mapVariants prior (serialize s)).player = s.player ∧
    (loadFromData mapVariants prior (serialize s)).monsters
      = s.monsters.map (fun m => { m with target := none }) ∧
    ((∀ m ∈ s.monsters, m.target = none) →
      (loadFromData mapVariants prior (serialize s)).monsters = s.monsters) ∧
    (loadFromData mapVariants prior (serialize s)).lives = s.lives ∧
    (loadFromData mapVariants prior (serialize s)).spawn_point = s.spawn_point ∧
    (loadFromData mapVariants prior (serialize s)).zachetki = s.zachetki ∧
    (loadFromData mapVariants prior (serialize s)).door_trigger = s.door_trigger ∧
    (loadFromData mapVariants prior (serialize s)).door_plane = s.door_plane ∧
    (loadFromData mapVariants prior (serialize s)).door_cell = s.door_cell ∧
    (loadFromData mapVariants prior (serialize s)).door_orientation = s.door_orientation ∧
    (loadFromData mapVariants prior (serialize s)).zachet_collected = s.zachet_collected ∧
    (loadFromData mapVariants prior (serialize s)).door_open = s.door_open ∧
    (loadFromData mapVariants prior (serialize s)).map_index = s.map_index ∧
    (loadFromData mapVariants prior (serialize s)).world = s.world := by
  have hidx : s.map_index % (mapVariants.length : ℤ) = s.map_index :=
    Int.emod_eq_of_lt hidx0 hidx1
  obtain ⟨a, l, hsm⟩ : ∃ a l, s.monsters = a :: l := by
    cases hc : s.monsters with
    | nil => exact absurd hc hm
    | cons a l => exact ⟨a, l, rfl⟩
  obtain ⟨b, bl, hsz⟩ : ∃ b bl, s.zachet_collected = b :: bl := by
    cases hc : s.zachet_collected with
    | nil => exact absurd hc hzc
    | cons b bl => exact ⟨b, bl, rfl⟩
  have hmon : (loadFromData mapVariants prior (serialize s)).monsters
      = s.monsters.map (fun m => { m with target := none }) := by
    simp only [loadFromData, serialize, List.map_map, hsm]
    simp [Function.comp]
  refine ⟨rfl, hmon, ?_, rfl, rfl, rfl, rfl, rfl, rfl, rfl, ?_, rfl, ?_, ?_⟩
  · intro htgt
    rw [hmon]
    have hcongr : ∀ m ∈ s.monsters, ({ m with target := none } : Monster) = m := by
      intro m hmem
      have ht := htgt m hmem
      cases m
      simp_all
    calc s.monsters.map (fun m => { m with target := none })
        = s.monsters.map id := List.map_congr_left hcongr
    _ = s.monsters := List.map_id s.monsters
  · have h1 : (loadFromData mapVariants prior (serialize s)).zachet_collected
        = if s.zachet_collected.isEmpty then List.replicate s.zachetki.length false
          else s.zachet_collected := rfl
    rw [h1, hsz]
    simp
  · have h1 : (loadFromData mapVariants prior (serialize s)).map_index
        = s.map_index % (mapVariants.length : ℤ) := rfl
    rw [h1, hidx]
  · have h1 : (loadFromData mapVariants prior (serialize s)).world
        = World.ofSpec
            (mapVariants.getD (s.map_index % (mapVariants.length : ℤ)).toNat ⟨[], []⟩) := rfl
    rw [h1, hidx, ← hw]

theorem serialize_roundtrip_witness :
    (cexState.monsters ≠ [] ∧ cexState.zachet_collected ≠ [] ∧
      (0 : ℤ) ≤ cexState.map_index ∧
      cexState.map_index < (([cexSpec] : List MapSpec).length : ℤ)) ∧
    (loadFromData [cexSpec] cexState (serialize cexState)).player = cexState.player ∧
    (loadFromData [cexSpec] cexState (serialize cexState)).monsters = cexState.monsters ∧
    (loadFromData [cexSpec] cexState (serialize cexState)).map_index = cexState.map_index ∧
    (loadFromData [cexSpec] cexState (serialize cexState)).world = cexState.world :=
  ⟨⟨by simp [cexState], by simp [cexState], by decide, by decide⟩,
    (serialize_roundtrip [cexSpec] cexState cexState (by simp [cexState])
      (by simp [cexState]) (by decide) (by decide) rfl).1,
    (serialize_roundtrip [cexSpec] cexState cexState (by simp [cexState])
      (by simp [cexState]) (by decide) (by decide) rfl).2.2.1
      (by intro m hmem; simp [cexState] at hmem; rw [hmem]; rfl),
    (serialize_roundtrip [cexSpec] cexState cexState (by simp [cexState])
      (by simp [cexState]) (by decide) (by decide) rfl).2.2.2.2.2.2.2.2.2.2.2.2.1,
    (serialize_roundtrip [cexSpec] cexState cexState (by simp [cexState])
      (by simp [cexState]) (by decide) (by decide) rfl).2.2.2.2.2.2.2.2.2.2.2.2.2⟩

/-- The blocked movement step of the target-carrying monster: heading for
the wall cell (5, 3), both axis collision checks fail and it stays put. -/
lemma cex_move_blocked : moveMonster cexWorld 5.5 3.5 0.5 4.5 3.5 = (4.5, 3.5) := by
  have hhyp : hypot ((5.5 : ℝ) - 4.5) ((3.5 : ℝ) - 3.5) = 1 := by
    rw [show (3.5 : ℝ) - 3.5 = 0 by norm_num, hypot_horiz,
      show (5.5 : ℝ) - 4.5 = 1 by norm_num, abs_of_nonneg (by norm_num : (0 : ℝ) ≤ 1)]
  have hmy : (3.5 : ℝ) + ((3.5 : ℝ) - 3.5) / (1 + 1e-9) * (MOVE_SPEED * 0.5) = 3.5 := by
    rw [MOVE_SPEED]; norm_num
  have hpx : pyInt ((4.5 : ℝ) + ((5.5 : ℝ) - 4.5) / (1 + 1e-9) * (MOVE_SPEED * 0.5)) = 5 := by
    apply pyInt_of_bounds <;> rw [MOVE_SPEED] <;> push_cast <;> norm_num
  have hpx45 : pyInt (4.5 : ℝ) = 4 := by
    apply pyInt_of_bounds <;> push_cast <;> norm_num
  have hb5 : cexWorld.is_blocking_cell 5 3 = true := by decide
  have hb4 : cexWorld.is_blocking_cell 4 3 = false := by decide
  simp only [moveMonster]
  rw [hhyp, hmy, hpx, pyInt_threehalf]
  norm_num [hb5, hpx45, hb4]

/-- One fully-evaluated pass of the per-monster loop body for an active
monster with no replan due and a live target, whose move lands at `pos`
without wrapping, target-clearing, or killing. -/
lemma processMonsters_cons_eval_tgt (wd : World) (rows : List (List ℤ)) (ppos : ℝ × ℝ)
    (t dt : ℝ) (m : Monster) (rest : List Monster) (minDist : ℤ)
    (hact : ¬ t < m.active_time) (hnr : ¬ m.next_replan ≤ t) (tg : ℝ × ℝ)
    (htgt : m.target = some tg)
    (pos : ℝ × ℝ) (hmv : moveMonster wd tg.1 tg.2 dt m.x m.y = pos)
    (hwrap : applyWrap wd pos.1 pos.2 = pos)
    (hclear : ¬ hypot (pos.1 - tg.1) (pos.2 - tg.2) < 0.18)
    (hkill : ¬ hypot (ppos.1 - pos.1) (ppos.2 - pos.2) < KILL_DIST) :
    processMonsters wd rows ppos t dt (m :: rest) minDist
      = (({ m with x := pos.1, y := pos.2 } : Monster)
          :: (processMonsters wd rows ppos t dt rest (min minDist m.tunnel_dist_cells)).1,
         (processMonsters wd rows ppos t dt rest (min minDist m.tunnel_dist_cells)).2) := by
  have hne2 : (some tg = (none : Option (ℝ × ℝ))) = False := by simp
  rw [processMonsters, if_neg hact]
  simp only [if_neg hnr, htgt, hne2, if_false, Option.getD_some, hmv, hwrap, if_neg hclear,
    if_neg hkill]

/-- Tick 1 for the original (unserialized) state: the monster keeps chasing
its stored target (5.5, 3.5), is blocked by the wall, and stays at
(4.5, 3.5). -/
lemma cex_tick1_orig :
    (monsterPhase cexWorld (1.5, 3.5) 1.9 0.5 [cexMonsterT]).1 = [cexMonsterT] := by
  have hact : ¬ ((1.9 : ℝ) < cexMonsterT.active_time) := by
    show ¬ ((1.9 : ℝ) < 0); norm_num
  have hnr : ¬ (cexMonsterT.next_replan ≤ (1.9 : ℝ)) := by
    show ¬ ((2 : ℝ) ≤ 1.9); norm_num
  have htgt : cexMonsterT.target = some (5.5, 3.5) := rfl
  have hclear : ¬ (hypot ((4.5 : ℝ) - 5.5) ((3.5 : ℝ) - 3.5) < 0.18) := by
    rw [show (3.5 : ℝ) - 3.5 = 0 by norm_num, hypot_horiz,
      show (4.5 : ℝ) - 5.5 = -1 by norm_num, abs_neg,
      abs_of_nonneg (by norm_num : (0 : ℝ) ≤ 1)]
    norm_num
  have hkill : ¬ (hypot ((1.5 : ℝ) - 4.5) ((3.5 : ℝ) - 3.5) < KILL_DIST) := by
    rw [show (3.5 : ℝ) - 3.5 = 0 by norm_num, hypot_horiz,
      show (1.5 : ℝ) - 4.5 = -3 by norm_num, abs_neg,
      abs_of_nonneg (by norm_num : (0 : ℝ) ≤ 3), KILL_DIST]
    norm_num
  have hphase : (monsterPhase cexWorld (1.5, 3.5) 1.9 0.5 [cexMonsterT]).1
      = (processMonsters cexWorld
          (distRows cexWorld.w cexWorld.h (worldDistMap cexWorld (pyInt 1.5, pyInt 3.5)))
          (1.5, 3.5) 1.9 0.5 [cexMonsterT] 999).1 := rfl
  have hstep := processMonsters_cons_eval_tgt cexWorld
    (distRows cexWorld.w cexWorld.h (worldDistMap cexWorld (pyInt 1.5, pyInt 3.5)))
    (1.5, 3.5) 1.9 0.5 cexMonsterT [] 999 hact hnr (5.5, 3.5) htgt
    (4.5, 3.5) cex_move_blocked (applyWrap_no_portals cexWorld rfl _ _) hclear hkill
  rw [hphase, hstep]
  rfl

/-- C4 counterexample: serialization drops the monster's in-flight movement
target, so the loaded state's next tick diverges from the unsaved run: the
original monster (blocked, heading at the wall cell (5, 3)) stays at
x = 4.5 while the loaded one falls back to chasing the player and moves. -/
theorem roundtrip_trajectory_counterexample :
    (loadFromData [cexSpec] cexStateT (serialize cexStateT)).monsters = [cexMonster] ∧
    cexStateT.monsters = [cexMonsterT] ∧
    cexMonsterT.target = some (5.5, 3.5) ∧ cexMonster.target = none ∧
    cexMonsterT.x = cexMonster.x ∧ cexMonsterT.y = cexMonster.y ∧
    cexMonsterT.active_time = cexMonster.active_time ∧
    cexMonsterT.next_replan = cexMonster.next_replan ∧
    cexMonsterT.tunnel_dist_cells = cexMonster.tunnel_dist_cells ∧
    (monsterPhase cexWorld (1.5, 3.5) 1.9 0.5 [cexMonsterT]).1 = [cexMonsterT] ∧
    (monsterPhase cexWorld (1.5, 3.5) 1.9 0.5 [cexMonster]).1 = [cexM1] ∧
    cexM1.x ≠ cexMonsterT.x := by
  refine ⟨rfl, rfl, rfl, rfl, rfl, rfl, rfl, rfl, rfl, cex_tick1_orig, cex_tick1, ?_⟩
  show (4.5 : ℝ) + ((1.5 : ℝ) - 4.5) / (3 + 1e-9) * (MOVE_SPEED * 0.5) ≠ 4.5
  rw [MOVE_SPEED]
  norm_num

end EFF
